import Mathlib

/-!
Verification development for the myia compiler middle-end:
* `src/myia/ir/graph.py` — the mutable IR graph (IRNode / IRGraph): edge roles,
  the link/unlink operation lists, `set_succ` / `set_app` / `redirect` /
  `replace`, and `toposort`.
* `src/myia/compile.py` — the A-normal-form transformer (`ANormalTransformer`)
  and the let-flattening pass (`CollapseLet`).

The IR graph is embedded as a total function from node ids to node records;
nodes that do not exist are the empty record.  Python's `set` of reverse edges
(`users`) is embedded as a duplicate-free list; Python's exceptions
(`assert`, `KeyError`, `IndexError`) are embedded as `Option` / `Except`
failures.  Only the edge structure of a node is embedded (`fn`, `inputs`,
`users`); the `value`, `tag`, `inferred` and `about` attributes play no role
in any property proved here.
-/

namespace Myia

/-- Node identifier (stands for an `IRNode` object reference). -/
abbrev NodeId := Nat

/-- Edge roles, from `graph.py`: `FN` is the function edge, `IN i` is the
i-th input edge. -/
inductive Role where
  | FN : Role
  | IN : Nat → Role
deriving DecidableEq, Repr

/-- The edge structure of an `IRNode`: `fn` (at most one forward function
edge), `inputs` (ordered, sparse forward edges; `none` is Python's `None`
hole) and `users` (the set of reverse edges, each a `(role, consumer)` pair;
embedded as a duplicate-free list). -/
structure NodeData where
  fn : Option NodeId
  inputs : List (Option NodeId)
  users : List (Role × NodeId)
deriving DecidableEq, Repr

/-- A node that was never created / never touched. -/
def NodeData.empty : NodeData := ⟨none, [], []⟩

instance : Inhabited NodeData := ⟨NodeData.empty⟩

/-- The heap of IR nodes. -/
abbrev GState := NodeId → NodeData

/-- `IRNode.is_computation`: `self.fn is not None`. -/
def isComputation (d : NodeData) : Bool := d.fn.isSome

/-- Sparse read of input slot `i` (Python list indexing with `None` holes;
out-of-range reads as empty, which matches how the structure is consumed). -/
def getInput (d : NodeData) (i : Nat) : Option NodeId := d.inputs.getD i none

/-- Python `set.add` on the users set. -/
def addUser (p : Role × NodeId) (l : List (Role × NodeId)) : List (Role × NodeId) :=
  if p ∈ l then l else p :: l

/-- The atomic operations produced by the `*_operations` methods:
`('link', from, to, role)`, `('unlink', from, to, role)` and the
bookkeeping `('redirect', from, to, None)` entry. -/
inductive Op where
  | link (src dst : NodeId) (role : Role)
  | unlink (src dst : NodeId) (role : Role)
  | redirectOp (src dst : NodeId)
deriving DecidableEq, Repr

/-- The input-list padding step of a `link` on role `IN idx`:
`if nin <= idx: self.inputs += [None for _ in range(idx - nin + 1)]`. -/
def padTo (l : List (Option NodeId)) (idx : Nat) : List (Option NodeId) :=
  if l.length <= idx then l ++ List.replicate (idx + 1 - l.length) none else l

/-- The forward-edge half of a `link` operation on the source node: the
Python `assert`s (role must be free) become `none`.  After the padding step
the index is always in range, so reading the slot with a default is exact. -/
def linkFwd (d : NodeData) (role : Role) (dst : NodeId) : Option NodeData :=
  match role with
  | .FN => if d.fn = none then some { d with fn := some dst } else none
  | .IN idx =>
    if (padTo d.inputs idx).getD idx none = none then
      some { d with inputs := (padTo d.inputs idx).set idx (some dst) }
    else none

/-- The forward-edge half of an `unlink` operation on the source node: the
Python `assert`s (slot must hold exactly `dst`; an out-of-range index also
fails) become `none`. -/
def unlinkFwd (d : NodeData) (role : Role) (dst : NodeId) : Option NodeData :=
  match role with
  | .FN => if d.fn = some dst then some { d with fn := none } else none
  | .IN idx =>
    if d.inputs.getD idx none = some dst then
      some { d with inputs := d.inputs.set idx none }
    else none

/-- `IRNode.process_operation`: execute one atomic operation.  The Python
`assert`s and `set.remove`'s `KeyError` become `none`.  The source node's
forward edge and the target node's reverse entry are updated sequentially,
which also handles the aliased `src = dst` case exactly as Python's object
mutation does. -/
def processOperation (s : GState) : Op → Option GState
  | .link src dst role =>
    match linkFwd (s src) role dst with
    | none => none
    | some d1 =>
      let s1 := Function.update s src d1
      some (Function.update s1 dst { s1 dst with users := addUser (role, src) (s1 dst).users })
  | .unlink src dst role =>
    match unlinkFwd (s src) role dst with
    | none => none
    | some d1 =>
      let s1 := Function.update s src d1
      if (role, src) ∈ (s1 dst).users then
        some (Function.update s1 dst { s1 dst with users := (s1 dst).users.erase (role, src) })
      else none
  | .redirectOp _ _ => some s

/-- `IRNode._commit`: execute a precomputed operation list in order. -/
def commit (s : GState) (ops : List Op) : Option GState :=
  ops.foldlM processOperation s

/-- `IRNode.set_succ_operations`.  Reading `self.inputs[role.index]` out of
range is Python's `IndexError`, hence `none`. -/
def set_succ_operations (s : GState) (self : NodeId) (role : Role)
    (node : Option NodeId) : Option (List Op) :=
  let d := s self
  let unl? : Option (Option NodeId) :=
    match role with
    | .FN => some d.fn
    | .IN idx => if h : idx < d.inputs.length then some (d.inputs.get ⟨idx, h⟩) else none
  match unl? with
  | none => none
  | some unl =>
    match unl with
    | some u =>
      if node = some u then some [] else
        some ([Op.unlink self u role] ++
          (match node with | some n => [Op.link self n role] | none => []))
    | none =>
      some (match node with | some n => [Op.link self n role] | none => [])

/-- `IRNode.set_app_operations`: function-edge diff first; the input edges
are touched only when `fn` is an actual node (`if fn:`). -/
def set_app_operations (s : GState) (self : NodeId) (fn : Option NodeId)
    (inputs : List (Option NodeId)) : Option (List Op) :=
  match set_succ_operations s self .FN fn with
  | none => none
  | some rval =>
    match fn with
    | none => some rval
    | some _ =>
      let unls := ((s self).inputs.enum).filterMap
        (fun p => p.2.map (fun inp => Op.unlink self inp (.IN p.1)))
      let lnks := (inputs.enum).filterMap
        (fun p => p.2.map (fun inp => Op.link self inp (.IN p.1)))
      some (rval ++ unls ++ lnks)

/-- `IRNode.redirect_operations`: one `set_succ` diff per recorded user,
all computed against the state before any mutation. -/
def redirect_operations (s : GState) (self : NodeId) (node : NodeId) :
    Option (List Op) :=
  match (s self).users.mapM (fun ru => set_succ_operations s ru.2 ru.1 (some node)) with
  | none => none
  | some opss => some (opss.flatten ++ [Op.redirectOp self node])

/-- `IRNode.set_succ`. -/
def setSucc (s : GState) (self : NodeId) (role : Role) (node : Option NodeId) :
    Option GState :=
  match set_succ_operations s self role node with
  | none => none
  | some ops => commit s ops

/-- `IRNode.set_app`. -/
def setApp (s : GState) (self : NodeId) (fn : Option NodeId)
    (inputs : List (Option NodeId)) : Option GState :=
  match set_app_operations s self fn inputs with
  | none => none
  | some ops => commit s ops

/-- `IRNode.redirect`. -/
def redirect (s : GState) (self : NodeId) (node : NodeId) : Option GState :=
  match redirect_operations s self node with
  | none => none
  | some ops => commit s ops

/-- An `IRGraph`, reduced to what the claims need: the node heap and the
output node. -/
structure Graph where
  state : GState
  output : NodeId

/-- `IRGraph.replace`: redirect, then retarget the output pointer. -/
def replace (g : Graph) (node1 node2 : NodeId) : Option Graph :=
  match redirect g.state node1 node2 with
  | none => none
  | some s' => some ⟨s', if g.output = node1 then node2 else g.output⟩

/-- The public mutations of claim C1. -/
inductive Mutation where
  | set_succ (self : NodeId) (role : Role) (node : Option NodeId)
  | set_app (self : NodeId) (fn : Option NodeId) (inputs : List (Option NodeId))
  | redirect (self : NodeId) (node : NodeId)
  | replace (node1 node2 : NodeId)

/-- Run one public mutation on a graph. -/
def applyMutation (g : Graph) : Mutation → Option Graph
  | .set_succ self role node =>
    match setSucc g.state self role node with
    | none => none
    | some s' => some ⟨s', g.output⟩
  | .set_app self fn inputs =>
    match setApp g.state self fn inputs with
    | none => none
    | some s' => some ⟨s', g.output⟩
  | .redirect self node =>
    match redirect g.state self node with
    | none => none
    | some s' => some ⟨s', g.output⟩
  | .replace n1 n2 => replace g n1 n2

/-- Run a sequence of public mutations. -/
def applyMutations (g : Graph) (ms : List Mutation) : Option Graph :=
  ms.foldlM applyMutation g

/-- The occupant of the forward slot of a node at a given role
(`IRNode.__getitem__`: `node.fn` for `FN`, `node.inputs[i]` for `IN i`,
with empty/missing slots reading as `none`). -/
def NodeData.fwd (d : NodeData) (r : Role) : Option NodeId :=
  match r with
  | .FN => d.fn
  | .IN i => getInput d i

/-- The forward edge of `a` at `role` points to `b`. -/
def FwdEdge (s : GState) (a : NodeId) (role : Role) (b : NodeId) : Prop :=
  (s a).fwd role = some b

instance (s : GState) (a : NodeId) (role : Role) (b : NodeId) :
    Decidable (FwdEdge s a role b) := by
  unfold FwdEdge
  exact inferInstanceAs (Decidable _)

/-- The edge-symmetry invariant of the IR graph: a `(role, A)` entry sits in
`B.users` exactly when `A` has the forward edge `(role, B)`, and the users
set is duplicate-free (so a matching entry is unique). -/
structure WF (s : GState) : Prop where
  sym : ∀ a role b, FwdEdge s a role b ↔ (role, a) ∈ (s b).users
  nodup : ∀ b, (s b).users.Nodup

/-! ### Toposort (`IRGraph.toposort`)

The Python loop pops an arbitrary element of the `ready` set and iterates
over Python sets (`successors()`, `{n for _, n in succ.users}`) in
unspecified order; the embedding fixes one deterministic order (head of a
duplicate-free list).  `pred` is the dictionary mapping a node to the set of
its not-yet-processed users, with `some none` standing for the Python `None`
marker.  Raised exceptions (the cycle error, `KeyError` from `set.remove`,
`AttributeError` from `None.remove`) are `Except.error`; the recursion is
driven by explicit fuel, with fuel exhaustion also an error. -/

/-- `IRNode.successors`: `{s for s in [self.fn] + self.inputs if s}`. -/
def successors (d : NodeData) : List NodeId :=
  ((d.fn :: d.inputs).filterMap id).dedup

/-- `{n for _, n in node.users}`. -/
def usersIds (d : NodeData) : List NodeId :=
  (d.users.map Prod.snd).dedup

/-- Python `set.add` on the ready set. -/
def addReady (x : NodeId) (l : List NodeId) : List NodeId :=
  if x ∈ l then l else l ++ [x]

/-- Association-list update (the `pred` dictionary). -/
def setAssoc (k : NodeId) (v : Option (List NodeId)) :
    List (NodeId × Option (List NodeId)) → List (NodeId × Option (List NodeId))
  | [] => [(k, v)]
  | (k', v') :: rest => if k' = k then (k, v) :: rest else (k', v') :: setAssoc k v rest

/-- The mutable state of the toposort loop. -/
structure TopoState where
  pred : List (NodeId × Option (List NodeId))
  ready : List NodeId
  processed : List NodeId
  results : List NodeId

/-- The inner `for succ in node.successors()` loop of `toposort`: on first
encounter of `succ` its user-id set is entered into `pred`; the processed
`node` is removed from it; on reaching the empty set `succ` is moved to the
ready set and its entry replaced by the `None` marker.  A missing removal
target is Python's `KeyError`, removal from the `None` marker is Python's
`AttributeError`. -/
def processSuccs (s : GState) (node : NodeId) :
    List NodeId → TopoState → Except String TopoState
  | [], ts => .ok ts
  | succ :: more, ts =>
    match (match ts.pred.lookup succ with
           | none => some (usersIds (s succ))
           | some v => v) with
    | none => .error "AttributeError"
    | some d =>
      if node ∈ d then
        if d.erase node = [] then
          processSuccs s node more
            { ts with pred := setAssoc succ none ts.pred,
                      ready := addReady succ ts.ready }
        else
          processSuccs s node more
            { ts with pred := setAssoc succ (some (d.erase node)) ts.pred }
      else .error "KeyError"

/-- The `while ready:` loop of `toposort`. -/
def topoLoop (s : GState) : Nat → TopoState → Except String (List NodeId)
  | 0, _ => .error "fuel exhausted"
  | fuel + 1, ts =>
    match ts.ready with
    | [] => .ok ts.results.reverse
    | node :: rest =>
      if isComputation (s node) then
        if node ∈ ts.processed then .error "Cannot toposort: cycle detected."
        else
          match processSuccs s node (successors (s node))
              { ts with ready := rest,
                        processed := node :: ts.processed,
                        results := ts.results ++ [node] } with
          | .error e => .error e
          | .ok ts2 => topoLoop s fuel ts2
      else topoLoop s fuel { ts with ready := rest }

/-- `IRGraph.toposort`, with explicit fuel for the loop. -/
def toposort (s : GState) (out : NodeId) (fuel : Nat) : Except String (List NodeId) :=
  if isComputation (s out) then topoLoop s fuel ⟨[], [out], [], []⟩
  else .ok []

/-! ### Reachability -/

/-- `a` has a forward dependency edge to `b` (`b` is `a.fn` or one of
`a.inputs`). -/
def IsEdge (s : GState) (a b : NodeId) : Prop :=
  (s a).fn = some b ∨ some b ∈ (s a).inputs

instance (s : GState) (a b : NodeId) : Decidable (IsEdge s a b) := by
  unfold IsEdge; exact inferInstanceAs (Decidable _)

/-- Nodes reachable from `root` following dependency edges through
computation nodes (non-computation nodes are leaves: `toposort` never
expands them). -/
inductive Reach (s : GState) (root : NodeId) : NodeId → Prop
  | refl : Reach s root root
  | step {a b : NodeId} : Reach s root a → isComputation (s a) →
      IsEdge s a b → Reach s root b

/-- The computation nodes reachable from `root`. -/
def CompReach (s : GState) (root : NodeId) (n : NodeId) : Prop :=
  Reach s root n ∧ isComputation (s n)

theorem mem_successors {d : NodeData} {b : NodeId} :
    b ∈ successors d ↔ (d.fn = some b ∨ some b ∈ d.inputs) := by
  unfold successors
  rw [List.mem_dedup, List.mem_filterMap]
  constructor
  · rintro ⟨o, ho, rfl⟩
    rcases List.mem_cons.mp ho with h | h
    · exact Or.inl h.symm
    · exact Or.inr h
  · rintro (h | h)
    · exact ⟨some b, List.mem_cons.mpr (Or.inl h.symm), rfl⟩
    · exact ⟨some b, List.mem_cons.mpr (Or.inr h), rfl⟩

theorem mem_successors_iff_isEdge {s : GState} {a b : NodeId} :
    b ∈ successors (s a) ↔ IsEdge s a b := mem_successors

/-! ### Basic lemmas about the small-step mutation primitives -/

/-! ### Basic lemmas about the small-step mutation primitives -/

theorem mem_addUser {p q : Role × NodeId} {l : List (Role × NodeId)} :
    p ∈ addUser q l ↔ p = q ∨ p ∈ l := by
  unfold addUser
  split
  · rename_i hq
    constructor
    · exact fun h => Or.inr h
    · rintro (rfl | h)
      · exact hq
      · exact h
  · exact List.mem_cons

theorem nodup_addUser {q : Role × NodeId} {l : List (Role × NodeId)}
    (h : l.Nodup) : (addUser q l).Nodup := by
  unfold addUser
  split
  · exact h
  · exact List.Nodup.cons (by assumption) h

theorem getD_set_self {l : List (Option NodeId)} {i : Nat} {v : Option NodeId}
    (h : i < l.length) : (l.set i v).getD i none = v := by
  rw [List.getD_eq_getElem _ _ (by simpa using h)]
  simp

theorem getD_set_of_ne {l : List (Option NodeId)} {i j : Nat} {v : Option NodeId}
    (h : j ≠ i) : (l.set i v).getD j none = l.getD j none := by
  rcases Nat.lt_or_ge j l.length with hj | hj
  · rw [List.getD_eq_getElem _ _ (by simpa using hj),
        List.getD_eq_getElem _ _ hj]
    rw [List.getElem_set_ne (by omega)]
  · rw [List.getD_eq_default _ _ (by simpa using hj),
        List.getD_eq_default _ _ hj]

theorem getD_append_replicate_none {l : List (Option NodeId)} {k i : Nat} :
    ((l ++ List.replicate k (none : Option NodeId)).getD i none) = l.getD i none := by
  rcases Nat.lt_or_ge i l.length with hi | hi
  · exact List.getD_append _ _ _ _ hi
  · rw [List.getD_append_right _ _ _ _ hi, List.getD_eq_default _ _ hi]
    rcases Nat.lt_or_ge (i - l.length) k with hk | hk
    · rw [List.getD_eq_getElem _ _ (by simpa using hk)]
      simp
    · exact List.getD_eq_default _ _ (by simpa using hk)

/-- The padded list reads exactly like the sparse read of the original. -/
theorem getD_pad (l : List (Option NodeId)) (idx i : Nat) :
    (padTo l idx).getD i none = l.getD i none := by
  unfold padTo
  split
  · exact getD_append_replicate_none
  · rfl

theorem pad_length_gt (l : List (Option NodeId)) (idx : Nat) :
    idx < (padTo l idx).length := by
  unfold padTo
  split
  · simp only [List.length_append, List.length_replicate]
    omega
  · omega

theorem fwd_FN (d : NodeData) : d.fwd .FN = d.fn := rfl

theorem fwd_IN (d : NodeData) (i : Nat) : d.fwd (.IN i) = d.inputs.getD i none := rfl

theorem fwd_mk_users (X : NodeData) (u : List (Role × NodeId)) (r : Role) :
    (NodeData.mk X.fn X.inputs u).fwd r = X.fwd r := by
  cases r
  · rfl
  · rfl

/-- What a successful `linkFwd` does to the slots of the source node. -/
theorem linkFwd_spec {d d1 : NodeData} {role : Role} {dst : NodeId}
    (h : linkFwd d role dst = some d1) :
    d.fwd role = none ∧
    (∀ r, d1.fwd r = if r = role then some dst else d.fwd r) ∧
    d1.users = d.users := by
  unfold linkFwd at h
  rcases role with _ | idx
  · simp only at h
    split at h
    · rename_i hfn
      cases h
      refine ⟨hfn, ?_, rfl⟩
      intro r
      rcases r with _ | i
      · rw [fwd_FN, fwd_FN]
        simp
      · rw [fwd_IN, fwd_IN]
        simp
    · cases h
  · simp only at h
    split at h
    · rename_i hslot
      cases h
      have hnone : d.fwd (Role.IN idx) = none := by
        rw [fwd_IN, ← getD_pad d.inputs idx idx]
        exact hslot
      refine ⟨hnone, ?_, rfl⟩
      intro r
      rcases r with _ | i
      · rw [fwd_FN, fwd_FN]
        simp
      · rw [fwd_IN, fwd_IN]
        simp only
        by_cases hi : i = idx
        · subst hi
          rw [getD_set_self (pad_length_gt _ _)]
          simp
        · rw [getD_set_of_ne hi, getD_pad]
          simp [Role.IN.injEq, hi]
    · cases h

/-- What a successful `unlinkFwd` does to the slots of the source node. -/
theorem unlinkFwd_spec {d d1 : NodeData} {role : Role} {dst : NodeId}
    (h : unlinkFwd d role dst = some d1) :
    d.fwd role = some dst ∧
    (∀ r, d1.fwd r = if r = role then none else d.fwd r) ∧
    d1.users = d.users := by
  unfold unlinkFwd at h
  rcases role with _ | idx
  · simp only at h
    split at h
    · rename_i hfn
      cases h
      refine ⟨hfn, ?_, rfl⟩
      intro r
      rcases r with _ | i
      · rw [fwd_FN, fwd_FN]
        simp
      · rw [fwd_IN, fwd_IN]
        simp
    · cases h
  · simp only at h
    split at h
    · rename_i hslot
      cases h
      have hidx : idx < d.inputs.length := by
        by_contra hge
        rw [List.getD_eq_default _ _ (by omega)] at hslot
        cases hslot
      refine ⟨hslot, ?_, rfl⟩
      intro r
      rcases r with _ | i
      · rw [fwd_FN, fwd_FN]
        simp
      · rw [fwd_IN, fwd_IN]
        simp only
        by_cases hi : i = idx
        · subst hi
          rw [getD_set_self hidx]
          simp
        · rw [getD_set_of_ne hi]
          simp [Role.IN.injEq, hi]
    · cases h

/-- Pointwise slot description of the two-step heap update performed by
`processOperation` (forward edge on `src`, then users on `dst`). -/
theorem upd2_fwd (s : GState) (src dst : NodeId) (d1 : NodeData)
    (u : List (Role × NodeId)) (a : NodeId) (r : Role) :
    ((Function.update (Function.update s src d1) dst
      (NodeData.mk (Function.update s src d1 dst).fn
        (Function.update s src d1 dst).inputs u)) a).fwd r =
    (if a = src then d1 else s a).fwd r := by
  by_cases had : a = dst
  · subst had
    rw [Function.update_same, fwd_mk_users, Function.update_apply]
  · rw [Function.update_noteq had, Function.update_apply]

/-- Pointwise users description of the same two-step heap update, assuming
the forward half did not change the source node's users. -/
theorem upd2_users (s : GState) (src dst : NodeId) (d1 : NodeData)
    (u : List (Role × NodeId)) (hus : d1.users = (s src).users) (b : NodeId) :
    ((Function.update (Function.update s src d1) dst
      (NodeData.mk (Function.update s src d1 dst).fn
        (Function.update s src d1 dst).inputs u)) b).users =
    if b = dst then u else (s b).users := by
  by_cases hbd : b = dst
  · subst hbd
    rw [Function.update_same, if_pos rfl]
  · rw [Function.update_noteq hbd, if_neg hbd, Function.update_apply]
    split
    · rename_i hbs
      rw [hus, hbs]
    · rfl

/-- The users list of `dst` as seen by the second update step equals its
original users list. -/
theorem upd1_users (s : GState) (src dst : NodeId) (d1 : NodeData)
    (hus : d1.users = (s src).users) :
    (Function.update s src d1 dst).users = (s dst).users := by
  rw [Function.update_apply]
  split
  · rename_i hds
    rw [hus, hds]
  · rfl

/-- Pointwise description of a successful `link` step. -/
theorem link_spec {s s' : GState} {src dst : NodeId} {role : Role}
    (h : processOperation s (.link src dst role) = some s') :
    (s src).fwd role = none ∧
    (∀ a r, (s' a).fwd r =
      if a = src ∧ r = role then some dst else (s a).fwd r) ∧
    (∀ b, (s' b).users =
      if b = dst then addUser (role, src) (s b).users else (s b).users) := by
  rcases hl : linkFwd (s src) role dst with _ | d1
  · simp [processOperation, hl] at h
  simp only [processOperation, hl, Option.some_inj] at h
  obtain ⟨hfree, hslots, hus⟩ := linkFwd_spec hl
  subst h
  refine ⟨hfree, ?_, ?_⟩
  · intro a r
    rw [upd2_fwd]
    by_cases has : a = src
    · subst has
      rw [if_pos rfl, hslots r]
      by_cases hr : r = role
      · rw [if_pos hr, if_pos ⟨rfl, hr⟩]
      · rw [if_neg hr, if_neg (fun hh => hr hh.2)]
    · rw [if_neg has, if_neg (fun hh => has hh.1)]
  · intro b
    rw [upd2_users s src dst d1 _ hus b]
    by_cases hbd : b = dst
    · rw [if_pos hbd, if_pos hbd, upd1_users s src dst d1 hus, hbd]
    · rw [if_neg hbd, if_neg hbd]

/-- Pointwise description of a successful `unlink` step. -/
theorem unlink_spec {s s' : GState} {src dst : NodeId} {role : Role}
    (h : processOperation s (.unlink src dst role) = some s') :
    (s src).fwd role = some dst ∧ (role, src) ∈ (s dst).users ∧
    (∀ a r, (s' a).fwd r =
      if a = src ∧ r = role then none else (s a).fwd r) ∧
    (∀ b, (s' b).users =
      if b = dst then (s b).users.erase (role, src) else (s b).users) := by
  rcases hl : unlinkFwd (s src) role dst with _ | d1
  · simp [processOperation, hl] at h
  obtain ⟨hsome, hslots, hus⟩ := unlinkFwd_spec hl
  simp only [processOperation, hl] at h
  split at h
  swap
  · cases h
  rename_i hmem0
  have hmem : (role, src) ∈ (s dst).users := by
    rw [upd1_users s src dst d1 hus] at hmem0
    exact hmem0
  simp only [Option.some_inj] at h
  subst h
  refine ⟨hsome, hmem, ?_, ?_⟩
  · intro a r
    rw [upd2_fwd]
    by_cases has : a = src
    · subst has
      rw [if_pos rfl, hslots r]
      by_cases hr : r = role
      · rw [if_pos hr, if_pos ⟨rfl, hr⟩]
      · rw [if_neg hr, if_neg (fun hh => hr hh.2)]
    · rw [if_neg has, if_neg (fun hh => has hh.1)]
  · intro b
    rw [upd2_users s src dst d1 _ hus b]
    by_cases hbd : b = dst
    · rw [if_pos hbd, if_pos hbd, upd1_users s src dst d1 hus, hbd]
    · rw [if_neg hbd, if_neg hbd]

/-! ### Claim C1: the edge-symmetry invariant is preserved -/

/-- One successful atomic operation preserves the edge-symmetry invariant:
each `link`/`unlink` updates the forward slot and the matching reverse
entry together. -/
theorem wf_processOperation {s s' : GState} {op : Op} (hwf : WF s)
    (h : processOperation s op = some s') : WF s' := by
  rcases op with ⟨src, dst, role⟩ | ⟨src, dst, role⟩ | ⟨src, dst⟩
  · obtain ⟨hfree, hfwd, huse⟩ := link_spec h
    constructor
    · intro a r b
      unfold FwdEdge
      rw [hfwd a r, huse b]
      by_cases hcase : a = src ∧ r = role
      · obtain ⟨rfl, rfl⟩ := hcase
        rw [if_pos ⟨rfl, rfl⟩]
        by_cases hbd : b = dst
        · subst hbd
          rw [if_pos rfl]
          simp [mem_addUser]
        · rw [if_neg hbd]
          constructor
          · intro hh
            exact absurd (Option.some_inj.mp hh) (fun e => hbd e.symm)
          · intro hh
            have := (hwf.sym a r b).mpr hh
            unfold FwdEdge at this
            rw [hfree] at this
            cases this
      · rw [if_neg hcase]
        have hiff := hwf.sym a r b
        unfold FwdEdge at hiff
        rw [hiff]
        by_cases hbd : b = dst
        · subst hbd
          rw [if_pos rfl, mem_addUser]
          constructor
          · exact fun hh => Or.inr hh
          · rintro (heq | hh)
            · exact absurd ⟨(Prod.mk.injEq _ _ _ _ ▸ heq).2,
                (Prod.mk.injEq _ _ _ _ ▸ heq).1⟩ hcase
            · exact hh
        · rw [if_neg hbd]
    · intro b
      rw [huse b]
      by_cases hbd : b = dst
      · subst hbd
        rw [if_pos rfl]
        exact nodup_addUser (hwf.nodup _)
      · rw [if_neg hbd]
        exact hwf.nodup b
  · obtain ⟨hsome, hmem, hfwd, huse⟩ := unlink_spec h
    constructor
    · intro a r b
      unfold FwdEdge
      rw [hfwd a r, huse b]
      by_cases hcase : a = src ∧ r = role
      · obtain ⟨rfl, rfl⟩ := hcase
        rw [if_pos ⟨rfl, rfl⟩]
        constructor
        · intro hh
          cases hh
        · intro hh
          by_cases hbd : b = dst
          · subst hbd
            rw [if_pos rfl] at hh
            exact absurd hh ((hwf.nodup b).not_mem_erase)
          · rw [if_neg hbd] at hh
            have := (hwf.sym a r b).mpr hh
            unfold FwdEdge at this
            rw [hsome] at this
            exact absurd (Option.some_inj.mp this) (fun e => hbd e.symm)
      · rw [if_neg hcase]
        have hiff := hwf.sym a r b
        unfold FwdEdge at hiff
        rw [hiff]
        by_cases hbd : b = dst
        · subst hbd
          rw [if_pos rfl, (hwf.nodup _).mem_erase_iff]
          constructor
          · intro hh
            refine ⟨?_, hh⟩
            intro heq
            exact hcase ⟨(Prod.mk.injEq _ _ _ _ ▸ heq).2,
              (Prod.mk.injEq _ _ _ _ ▸ heq).1⟩
          · exact fun hh => hh.2
        · rw [if_neg hbd]
    · intro b
      rw [huse b]
      by_cases hbd : b = dst
      · subst hbd
        rw [if_pos rfl]
        exact (hwf.nodup b).erase _
      · rw [if_neg hbd]
        exact hwf.nodup b
  · simp only [processOperation, Option.some_inj] at h
    subst h
    exact hwf

/-- A successful commit of any operation list preserves the invariant. -/
theorem wf_commit {ops : List Op} {s s' : GState} (hwf : WF s)
    (h : commit s ops = some s') : WF s' := by
  induction ops generalizing s with
  | nil =>
    unfold commit at h
    simp only [List.foldlM_nil, Option.pure_def, Option.some_inj] at h
    subst h
    exact hwf
  | cons op rest ih =>
    unfold commit at h
    rw [List.foldlM_cons] at h
    rcases hstep : processOperation s op with _ | s1
    · rw [hstep] at h
      cases h
    · rw [hstep] at h
      exact ih (wf_processOperation hwf hstep) h

/-- `set_succ` preserves the invariant. -/
theorem wf_setSucc {s s' : GState} {self : NodeId} {role : Role}
    {node : Option NodeId} (hwf : WF s) (h : setSucc s self role node = some s') :
    WF s' := by
  unfold setSucc at h
  rcases hops : set_succ_operations s self role node with _ | ops
  · rw [hops] at h
    cases h
  · rw [hops] at h
    exact wf_commit hwf h

/-- `set_app` preserves the invariant. -/
theorem wf_setApp {s s' : GState} {self : NodeId} {fn : Option NodeId}
    {inputs : List (Option NodeId)} (hwf : WF s)
    (h : setApp s self fn inputs = some s') : WF s' := by
  unfold setApp at h
  rcases hops : set_app_operations s self fn inputs with _ | ops
  · rw [hops] at h
    cases h
  · rw [hops] at h
    exact wf_commit hwf h

/-- `redirect` preserves the invariant. -/
theorem wf_redirect {s s' : GState} {self node : NodeId} (hwf : WF s)
    (h : redirect s self node = some s') : WF s' := by
  unfold redirect at h
  rcases hops : redirect_operations s self node with _ | ops
  · rw [hops] at h
    cases h
  · rw [hops] at h
    exact wf_commit hwf h

/-- A successful public mutation preserves the invariant. -/
theorem wf_applyMutation {g g' : Graph} {m : Mutation} (hwf : WF g.state)
    (h : applyMutation g m = some g') : WF g'.state := by
  rcases m with ⟨self, role, node⟩ | ⟨self, fn, inputs⟩ | ⟨self, node⟩ | ⟨n1, n2⟩
  · simp only [applyMutation] at h
    rcases hs : setSucc g.state self role node with _ | s1
    · rw [hs] at h
      cases h
    · rw [hs] at h
      cases h
      exact wf_setSucc hwf hs
  · simp only [applyMutation] at h
    rcases hs : setApp g.state self fn inputs with _ | s1
    · rw [hs] at h
      cases h
    · rw [hs] at h
      cases h
      exact wf_setApp hwf hs
  · simp only [applyMutation] at h
    rcases hs : redirect g.state self node with _ | s1
    · rw [hs] at h
      cases h
    · rw [hs] at h
      cases h
      exact wf_redirect hwf hs
  · simp only [applyMutation, replace] at h
    rcases hs : redirect g.state n1 n2 with _ | s1
    · rw [hs] at h
      cases h
    · rw [hs] at h
      cases h
      exact wf_redirect hwf hs

/-- A successful sequence of public mutations preserves the invariant. -/
theorem wf_applyMutations {g g' : Graph} {ms : List Mutation} (hwf : WF g.state)
    (h : applyMutations g ms = some g') : WF g'.state := by
  induction ms generalizing g with
  | nil =>
    unfold applyMutations at h
    simp only [List.foldlM_nil, Option.pure_def, Option.some_inj] at h
    subst h
    exact hwf
  | cons m rest ih =>
    unfold applyMutations at h
    rw [List.foldlM_cons] at h
    rcases hstep : applyMutation g m with _ | g1
    · rw [hstep] at h
      cases h
    · rw [hstep] at h
      exact ih (wf_applyMutation hwf hstep) h

theorem count_users_eq_one {l : List (Role × NodeId)} (hnd : l.Nodup)
    {p : Role × NodeId} (hp : p ∈ l) : l.count p = 1 := by
  induction l with
  | nil => cases hp
  | cons q rest ih =>
    have hnd2 := List.nodup_cons.mp hnd
    rcases List.mem_cons.mp hp with rfl | hmem
    · simp [List.count_cons, List.count_eq_zero.mpr hnd2.1]
    · have hpq : p ≠ q := fun e => by subst e; exact hnd2.1 hmem
      simp [List.count_cons, ih hnd2.2 hmem, hpq]

/-- The empty heap satisfies the invariant. -/
theorem wf_empty : WF (fun _ => NodeData.empty) := by
  constructor
  · intro a role b
    constructor
    · intro h
      unfold FwdEdge NodeData.fwd NodeData.empty getInput at h
      rcases role with _ | i <;> simp at h
    · intro h
      unfold NodeData.empty at h
      cases h
  · intro b
    exact List.nodup_nil

/-- Claim C1: for every IR graph satisfying the edge-symmetry invariant and
every sequence of valid (successfully completing) mutations — `set_succ`,
`set_app`, `redirect`, `replace` — the invariant holds afterwards: every
forward edge `(role, B)` on a node `A` has exactly one matching `(role, A)`
entry in `B.users`, and every users entry corresponds to a matching forward
edge. -/
theorem C1_edge_symmetry_invariant (g g' : Graph) (ms : List Mutation)
    (hwf : WF g.state) (h : applyMutations g ms = some g') :
    WF g'.state ∧
    (∀ a role b, FwdEdge g'.state a role b ↔ (role, a) ∈ (g'.state b).users) ∧
    (∀ a role b, FwdEdge g'.state a role b →
      (g'.state b).users.count (role, a) = 1) := by
  have hwf2 := wf_applyMutations hwf h
  refine ⟨hwf2, hwf2.sym, ?_⟩
  intro a role b hfe
  exact count_users_eq_one (hwf2.nodup b) ((hwf2.sym a role b).mp hfe)

/-- A tiny concrete graph scenario for the C1 witness: starting from the
empty heap, build an application node, rewire an input, redirect a node and
replace the output. -/
def c1BaseGraph : Graph := ⟨fun _ => NodeData.empty, 0⟩

def c1Muts : List Mutation :=
  [Mutation.set_app 0 (some 1) [some 2],
   Mutation.set_succ 0 (Role.IN 0) (some 3),
   Mutation.redirect 3 2,
   Mutation.replace 0 2]

/-- Witness for C1 at a concrete graph and mutation sequence. -/
theorem C1_edge_symmetry_invariant_witness :
    ∃ g', applyMutations c1BaseGraph c1Muts = some g' ∧ WF g'.state ∧
      (∀ a role b, FwdEdge g'.state a role b ↔ (role, a) ∈ (g'.state b).users) := by
  obtain ⟨hwf, hsym, hcnt⟩ :=
    C1_edge_symmetry_invariant c1BaseGraph _ c1Muts wf_empty rfl
  exact ⟨_, rfl, hwf, hsym⟩

/-! ### A decidable invariant check for concrete finite graphs -/

/-- Executable edge-symmetry check over a support list `U`. -/
def WFonB (U : List NodeId) (s : GState) : Bool :=
  U.all (fun a =>
    (match (s a).fn with
     | none => true
     | some b => decide ((Role.FN, a) ∈ (s b).users)) &&
    ((List.range (s a).inputs.length).all (fun i =>
      match getInput (s a) i with
      | none => true
      | some b => decide ((Role.IN i, a) ∈ (s b).users))) &&
    ((s a).users.all (fun p => decide ((s p.2).fwd p.1 = some a))) &&
    decide ((s a).users.Nodup))

/-- A heap that is empty outside `U` and passes the executable check
satisfies the invariant. -/
theorem wf_of_WFonB {U : List NodeId} {s : GState}
    (hU : ∀ a, a ∉ U → s a = NodeData.empty)
    (hB : WFonB U s = true) : WF s := by
  have hchecks := List.all_eq_true.mp hB
  have husers_empty : ∀ b, b ∉ U → (s b).users = [] := by
    intro b hb
    rw [hU b hb]
    rfl
  constructor
  · intro a role b
    constructor
    · intro hfe
      by_cases haU : a ∈ U
      · have := hchecks a haU
        simp only [Bool.and_eq_true] at this
        obtain ⟨⟨⟨hfn, hins⟩, hrev⟩, hnd⟩ := this
        rcases role with _ | i
        · rw [FwdEdge, fwd_FN] at hfe
          rw [hfe] at hfn
          exact of_decide_eq_true hfn
        · rw [FwdEdge, fwd_IN] at hfe
          have hlen : i < (s a).inputs.length := by
            by_contra hge
            rw [List.getD_eq_default _ _ (by omega)] at hfe
            cases hfe
          have := List.all_eq_true.mp hins i (List.mem_range.mpr hlen)
          rw [(by exact hfe : getInput (s a) i = some b)] at this
          exact of_decide_eq_true this
      · rw [FwdEdge, hU a haU] at hfe
        rcases role with _ | i
        · cases hfe
        · rw [fwd_IN] at hfe
          cases hfe
    · intro hmem
      by_cases hbU : b ∈ U
      · have := hchecks b hbU
        simp only [Bool.and_eq_true] at this
        obtain ⟨⟨⟨hfn, hins⟩, hrev⟩, hnd⟩ := this
        have := List.all_eq_true.mp hrev (role, a) hmem
        exact of_decide_eq_true this
      · rw [husers_empty b hbU] at hmem
        cases hmem
  · intro b
    by_cases hbU : b ∈ U
    · have := hchecks b hbU
      simp only [Bool.and_eq_true] at this
      exact of_decide_eq_true this.2
    · rw [husers_empty b hbU]
      exact List.nodup_nil

/-! ### Claim C10: non-computation output yields the empty list -/

/-- Claim C10: for every IR graph whose output node is not a computation
node (constant, graph reference or free input all have `fn = None`),
`toposort` returns the empty list without raising or traversing, for any
fuel. -/
theorem C10_toposort_non_computation_output (s : GState) (out : NodeId)
    (fuel : Nat) (h : isComputation (s out) = false) :
    toposort s out fuel = .ok [] := by
  unfold toposort
  rw [h]
  simp

/-- Witness for C10 at a concrete heap whose output is a free input. -/
theorem C10_toposort_non_computation_output_witness :
    isComputation ((fun _ => NodeData.empty : GState) 0) = false ∧
    toposort (fun _ => NodeData.empty) 0 7 = .ok [] :=
  ⟨rfl, C10_toposort_non_computation_output (fun _ => NodeData.empty) 0 7 rfl⟩

/-! ### Claim C4: toposort on a cyclic graph (code bug evidence)

The concrete heap below is a well-formed graph whose output node `0` is a
computation depending on node `2`, with a dependency cycle between the
computation nodes `2` and `3` (each is the other's input).  `toposort`
terminates silently with the partial ordering `[0]` instead of raising the
cycle error: node `2`'s user count never reaches zero, so the cycle is never
entered and never detected. -/

def cs4 : GState := fun n =>
  match n with
  | 0 => ⟨some 1, [some 2], []⟩
  | 1 => ⟨none, [], [(Role.FN, 0), (Role.FN, 2), (Role.FN, 3)]⟩
  | 2 => ⟨some 1, [some 3], [(Role.IN 0, 0), (Role.IN 0, 3)]⟩
  | 3 => ⟨some 1, [some 2], [(Role.IN 0, 2)]⟩
  | _ => NodeData.empty

theorem cs4_support : ∀ a, a ∉ [0, 1, 2, 3] → cs4 a = NodeData.empty := by
  intro a ha
  rcases a with _ | _ | _ | _ | n
  · exact absurd (by decide) ha
  · exact absurd (by decide) ha
  · exact absurd (by decide) ha
  · exact absurd (by decide) ha
  · rfl

theorem cs4_wf : WF cs4 := wf_of_WFonB cs4_support (by decide)

/-- Claim C4 (code-bug evidence): `cs4` contains a cycle among computation
nodes reachable from the output, yet `toposort` silently returns the partial
ordering `[0]` instead of raising the cycle-detected error. -/
theorem C4_cycle_not_detected :
    toposort cs4 0 10 = .ok [0] ∧
    WF cs4 ∧ isComputation (cs4 0) = true ∧
    CompReach cs4 0 2 ∧ CompReach cs4 0 3 ∧
    IsEdge cs4 2 3 ∧ IsEdge cs4 3 2 ∧
    (2 : NodeId) ∉ [(0 : NodeId)] := by
  have h2 : Reach cs4 0 2 := Reach.step Reach.refl rfl (Or.inr (by decide))
  have h3 : Reach cs4 0 3 := Reach.step h2 rfl (Or.inr (by decide))
  exact ⟨rfl, cs4_wf, rfl, ⟨h2, rfl⟩, ⟨h3, rfl⟩,
    Or.inr (by decide), Or.inr (by decide), by decide⟩

/-! ### Claims C6 and C7: counterexample heaps -/

/-- Node `0` is used by node `1` at the function role (a well-formed
two-node graph). -/
def cs6 : GState := fun n =>
  match n with
  | 0 => ⟨none, [], [(Role.FN, 1)]⟩
  | 1 => ⟨some 0, [], []⟩
  | _ => NodeData.empty

theorem cs6_support : ∀ a, a ∉ [0, 1] → cs6 a = NodeData.empty := by
  intro a ha
  rcases a with _ | _ | n
  · exact absurd (by decide) ha
  · exact absurd (by decide) ha
  · rfl

theorem cs6_wf : WF cs6 := wf_of_WFonB cs6_support (by decide)

/-- Counterexample to claim C6 as stated: redirecting a node with users to
itself (`B = A`) succeeds but leaves `A.users` unchanged and non-empty —
each per-user diff is the empty diff because the new successor equals the
old one. -/
theorem C6_redirect_counterexample :
    WF cs6 ∧ (cs6 0).users ≠ [] ∧
    redirect cs6 0 0 = some cs6 ∧ (cs6 0).users = [(Role.FN, 1)] :=
  ⟨cs6_wf, by decide, rfl, rfl⟩

/-- Node `0` is a computation (`fn = 1`) with input `2`; a well-formed
graph used to show `set_app` with `fn = None` never touches the inputs. -/
def cs7 : GState := fun n =>
  match n with
  | 0 => ⟨some 1, [some 2], []⟩
  | 1 => ⟨none, [], [(Role.FN, 0)]⟩
  | 2 => ⟨none, [], [(Role.IN 0, 0)]⟩
  | _ => NodeData.empty

theorem cs7_support : ∀ a, a ∉ [0, 1, 2] → cs7 a = NodeData.empty := by
  intro a ha
  rcases a with _ | _ | _ | n
  · exact absurd (by decide) ha
  · exact absurd (by decide) ha
  · exact absurd (by decide) ha
  · rfl

theorem cs7_wf : WF cs7 := wf_of_WFonB cs7_support (by decide)

/-- Counterexample to claim C7 as stated: `set_app(None, inputs)` completes
but leaves the input list untouched (`if fn:` skips the whole input diff),
so the node's inputs are not the given list. -/
theorem C7_set_app_counterexample :
    WF cs7 ∧
    (∃ s', setApp cs7 0 none [some 3] = some s' ∧
      (s' 0).fn = none ∧ (s' 0).inputs = [some 2] ∧ (s' 0).inputs ≠ [some 3]) :=
  ⟨cs7_wf, ⟨_, rfl, by decide, by decide, by decide⟩⟩

/-! ### Claim C6 (amended): redirect correctness -/

theorem commit_cons {s : GState} {op : Op} {ops : List Op} :
    commit s (op :: ops) =
      (processOperation s op).bind (fun t => commit t ops) := by
  unfold commit
  rw [List.foldlM_cons]
  rfl

theorem commit_append {s : GState} {l1 l2 : List Op} :
    commit s (l1 ++ l2) = (commit s l1).bind (fun t => commit t l2) := by
  unfold commit
  rw [List.foldlM_append]
  rfl

/-- Fields of any node other than the operation's source are unchanged by
the two-step heap update. -/
theorem upd2_fields (s : GState) (src dst : NodeId) (d1 : NodeData)
    (u : List (Role × NodeId)) (a : NodeId) (ha : a ≠ src) :
    ((Function.update (Function.update s src d1) dst
      (NodeData.mk (Function.update s src d1 dst).fn
        (Function.update s src d1 dst).inputs u)) a).fn = (s a).fn ∧
    ((Function.update (Function.update s src d1) dst
      (NodeData.mk (Function.update s src d1 dst).fn
        (Function.update s src d1 dst).inputs u)) a).inputs = (s a).inputs := by
  by_cases had : a = dst
  · subst had
    rw [Function.update_same]
    constructor
    · show (Function.update s src d1 a).fn = (s a).fn
      rw [Function.update_noteq ha]
    · show (Function.update s src d1 a).inputs = (s a).inputs
      rw [Function.update_noteq ha]
  · rw [Function.update_noteq had, Function.update_noteq ha]
    exact ⟨rfl, rfl⟩

theorem link_fields {s s' : GState} {src dst : NodeId} {role : Role}
    (h : processOperation s (.link src dst role) = some s') :
    ∀ a, a ≠ src → (s' a).fn = (s a).fn ∧ (s' a).inputs = (s a).inputs := by
  rcases hl : linkFwd (s src) role dst with _ | d1
  · simp [processOperation, hl] at h
  simp only [processOperation, hl, Option.some_inj] at h
  subst h
  exact fun a ha => upd2_fields s src dst d1 _ a ha

theorem unlink_fields {s s' : GState} {src dst : NodeId} {role : Role}
    (h : processOperation s (.unlink src dst role) = some s') :
    ∀ a, a ≠ src → (s' a).fn = (s a).fn ∧ (s' a).inputs = (s a).inputs := by
  rcases hl : unlinkFwd (s src) role dst with _ | d1
  · simp [processOperation, hl] at h
  simp only [processOperation, hl] at h
  split at h
  swap
  · cases h
  simp only [Option.some_inj] at h
  subst h
  exact fun a ha => upd2_fields s src dst d1 _ a ha

/-- The per-user diff computed by `redirect_operations` when the consumer
really points at `A` and the new target differs: one unlink plus one link. -/
theorem set_succ_ops_of_user {s : GState} {c A B : NodeId} {r : Role}
    (hfe : (s c).fwd r = some A) (hBA : B ≠ A) :
    set_succ_operations s c r (some B) =
      some [Op.unlink c A r, Op.link c B r] := by
  have hne : (some B : Option NodeId) ≠ some A :=
    fun hh => hBA (Option.some_inj.mp hh)
  rcases r with _ | i
  · rw [fwd_FN] at hfe
    simp only [set_succ_operations, hfe]
    rw [if_neg hne]
    rfl
  · rw [fwd_IN] at hfe
    have hlen : i < (s c).inputs.length := by
      by_contra hge
      rw [List.getD_eq_default _ _ (by omega)] at hfe
      cases hfe
    have hget : (s c).inputs.get ⟨i, hlen⟩ = some A := by
      rw [List.get_eq_getElem, ← List.getD_eq_getElem _ none hlen]
      exact hfe
    simp only [set_succ_operations, dif_pos hlen, hget]
    rw [if_neg hne]
    rfl

theorem mapM_redirect_ops {s : GState} {A B : NodeId} (hBA : B ≠ A) :
    ∀ (l : List (Role × NodeId)), (∀ p ∈ l, FwdEdge s p.2 p.1 A) →
    l.mapM (fun ru => set_succ_operations s ru.2 ru.1 (some B)) =
      some (l.map (fun p => [Op.unlink p.2 A p.1, Op.link p.2 B p.1])) := by
  intro l
  induction l with
  | nil => intro _; rfl
  | cons q l2 ih =>
    intro hfe
    rw [List.mapM_cons, set_succ_ops_of_user (hfe q (List.mem_cons_self q l2)) hBA,
        ih (fun p hp => hfe p (List.mem_cons_of_mem q hp))]
    rfl

theorem redirect_ops_eq {s : GState} {A B : NodeId} (hBA : B ≠ A)
    (hfe : ∀ p ∈ (s A).users, FwdEdge s p.2 p.1 A) :
    redirect_operations s A B = some
      ((((s A).users.map
          (fun p => [Op.unlink p.2 A p.1, Op.link p.2 B p.1])).flatten)
        ++ [Op.redirectOp A B]) := by
  unfold redirect_operations
  rw [mapM_redirect_ops hBA (s A).users hfe]

theorem nodup_erase_filter (us : List (Role × NodeId)) (hnd : us.Nodup)
    (q : Role × NodeId) (l2 : List (Role × NodeId)) :
    (us.erase q).filter (fun p => decide (p ∉ l2)) =
    us.filter (fun p => decide (p ∉ q :: l2)) := by
  induction us with
  | nil => rfl
  | cons u us2 ih =>
    have hnd2 := List.nodup_cons.mp hnd
    by_cases huq : u = q
    · subst huq
      rw [List.erase_cons_head, List.filter_cons]
      have hu : decide (u ∉ u :: l2) = false := by simp
      rw [hu]
      simp only [Bool.false_eq_true, if_false]
      apply List.filter_congr
      intro p hp
      have hpu : p ≠ u := fun e => hnd2.1 (e ▸ hp)
      simp [List.mem_cons, hpu]
    · rw [List.erase_cons_tail (by simpa using fun e => huq e),
          List.filter_cons, List.filter_cons]
      have heq : decide (u ∉ q :: l2) = decide (u ∉ l2) := by
        simp [List.mem_cons, huq]
      rw [heq, ih hnd2.2]

theorem filter_not_mem_self (us : List (Role × NodeId)) :
    us.filter (fun p => decide (p ∉ us)) = [] := by
  rw [List.filter_eq_nil_iff]
  intro p hp
  simp [hp]

/-- Walking the committed redirect diff list: every listed consumer ends up
pointing at `B`, slots not listed are untouched, and the listed entries are
removed from `A.users`. -/
theorem redirect_commit_walk {A B : NodeId} (hBA : B ≠ A) :
    ∀ (l : List (Role × NodeId)) (s s' : GState), WF s → l.Nodup →
    (∀ p ∈ l, p.2 ≠ A) →
    (∀ p ∈ l, FwdEdge s p.2 p.1 A) →
    commit s ((l.map
      (fun p => [Op.unlink p.2 A p.1, Op.link p.2 B p.1])).flatten) = some s' →
    (∀ p ∈ l, FwdEdge s' p.2 p.1 B) ∧
    (∀ c r, (r, c) ∉ l → (s' c).fwd r = (s c).fwd r) ∧
    ((s' A).fn = (s A).fn ∧ (s' A).inputs = (s A).inputs) ∧
    ((s' A).users = (s A).users.filter (fun p => decide (p ∉ l))) := by
  intro l
  induction l with
  | nil =>
    intro s s' hwf hnd hne hfe hc
    unfold commit at hc
    simp only [List.map_nil, List.flatten_nil, List.foldlM_nil, Option.pure_def,
      Option.some_inj] at hc
    subst hc
    refine ⟨fun p hp => absurd hp (List.not_mem_nil p), fun c r _ => rfl,
      ⟨rfl, rfl⟩, ?_⟩
    rw [List.filter_eq_self.mpr]
    intro p hp
    exact decide_eq_true (List.not_mem_nil p)
  | cons q l2 ih =>
    intro s s' hwf hnd hne hfe hc
    have hndc := List.nodup_cons.mp hnd
    rw [List.map_cons, List.flatten_cons, List.cons_append, List.singleton_append,
      commit_cons] at hc
    rcases h1 : processOperation s (Op.unlink q.2 A q.1) with _ | t1
    · rw [h1] at hc
      cases hc
    rw [h1] at hc
    have hc1 : commit t1 (Op.link q.2 B q.1 ::
        (l2.map (fun p => [Op.unlink p.2 A p.1, Op.link p.2 B p.1])).flatten)
        = some s' := hc
    rw [commit_cons] at hc1
    rcases h2 : processOperation t1 (Op.link q.2 B q.1) with _ | t2
    · rw [h2] at hc1
      cases hc1
    rw [h2] at hc1
    have hc2 : commit t2
        ((l2.map (fun p => [Op.unlink p.2 A p.1, Op.link p.2 B p.1])).flatten)
        = some s' := hc1
    have hwf1 := wf_processOperation hwf h1
    have hwf2 := wf_processOperation hwf1 h2
    obtain ⟨hufe, humem, huf, huu⟩ := unlink_spec h1
    obtain ⟨hlfree, hlf, hlu⟩ := link_spec h2
    have hqA : q.2 ≠ A := hne q (List.mem_cons_self q l2)
    have hfe2 : ∀ p ∈ l2, FwdEdge t2 p.2 p.1 A := by
      intro p hp
      have hpq : p ≠ q := fun e => hndc.1 (e ▸ hp)
      have hcond : ¬(p.2 = q.2 ∧ p.1 = q.1) := by
        rintro ⟨e2, e1⟩
        exact hpq (Prod.ext e1 e2)
      unfold FwdEdge
      rw [hlf p.2 p.1, if_neg hcond, huf p.2 p.1, if_neg hcond]
      exact hfe p (List.mem_cons_of_mem q hp)
    obtain ⟨ihB, ihslots, ihfields, ihusers⟩ :=
      ih t2 s' hwf2 hndc.2 (fun p hp => hne p (List.mem_cons_of_mem q hp)) hfe2 hc2
    refine ⟨?_, ?_, ?_, ?_⟩
    · intro p hp
      rcases List.mem_cons.mp hp with rfl | hp2
      · have hq2 : FwdEdge t2 p.2 p.1 B := by
          unfold FwdEdge
          rw [hlf p.2 p.1, if_pos ⟨rfl, rfl⟩]
        have hnot : (p.1, p.2) ∉ l2 := by
          intro hmem
          exact hndc.1 (by simpa using hmem)
        unfold FwdEdge
        rw [ihslots p.2 p.1 hnot]
        exact hq2
      · exact ihB p hp2
    · intro c r hcr
      have hnotl2 : (r, c) ∉ l2 := fun hh => hcr (List.mem_cons_of_mem q hh)
      have hnotq : (r, c) ≠ q := fun hh => hcr (hh ▸ List.mem_cons_self q l2)
      have hcond : ¬(c = q.2 ∧ r = q.1) := by
        rintro ⟨e2, e1⟩
        exact hnotq (by rw [e1, e2])
      rw [ihslots c r hnotl2, hlf c r, if_neg hcond, huf c r, if_neg hcond]
    · have hAq : A ≠ q.2 := fun e => hqA e.symm
      obtain ⟨hf1, hi1⟩ := unlink_fields h1 A hAq
      obtain ⟨hf2, hi2⟩ := link_fields h2 A hAq
      rw [ihfields.1, ihfields.2, hf2, hi2, hf1, hi1]
      exact ⟨rfl, rfl⟩
    · rw [ihusers, hlu A, if_neg (fun e => hBA e.symm), huu A, if_pos rfl]
      have heq2 := nodup_erase_filter (s A).users (hwf.nodup A) (q.1, q.2) l2
      rw [Prod.mk.eta] at heq2
      rw [heq2]

/-- Amended claim C6: after `A.redirect(B)` completes, provided the new
target `B` is a different node and `A` is not among its own users, every
`(role, consumer)` pair that was in `A.users` beforehand is now a forward
edge from that consumer to `B` at the same role, `A.users` is empty, and
`A`'s own forward edges (`fn` and `inputs`) are unchanged. -/
theorem C6_redirect_amended (s s' : GState) (A B : NodeId) (hwf : WF s)
    (hBA : B ≠ A) (hself : ∀ r, (r, A) ∉ (s A).users)
    (h : redirect s A B = some s') :
    (∀ p ∈ (s A).users, FwdEdge s' p.2 p.1 B) ∧
    (s' A).users = [] ∧
    (s' A).fn = (s A).fn ∧ (s' A).inputs = (s A).inputs := by
  have hfe : ∀ p ∈ (s A).users, FwdEdge s p.2 p.1 A := by
    intro p hp
    exact (hwf.sym p.2 p.1 A).mpr (by simpa using hp)
  have hne : ∀ p ∈ (s A).users, p.2 ≠ A := by
    intro p hp hpA
    have he : (p.1, A) = p := by rw [← hpA]
    exact hself p.1 (by rw [he]; exact hp)
  unfold redirect at h
  rw [redirect_ops_eq hBA hfe] at h
  have h2 : commit s
      ((((s A).users.map
        (fun p => [Op.unlink p.2 A p.1, Op.link p.2 B p.1])).flatten)
        ++ [Op.redirectOp A B]) = some s' := h
  rw [commit_append] at h2
  rcases hcf : commit s
      (((s A).users.map
        (fun p => [Op.unlink p.2 A p.1, Op.link p.2 B p.1])).flatten)
      with _ | t
  · rw [hcf] at h2
    cases h2
  rw [hcf] at h2
  have h3 : commit t [Op.redirectOp A B] = some s' := h2
  have h4 : t = s' := by
    have h5 : some t = some s' := h3
    exact Option.some_inj.mp h5
  subst h4
  obtain ⟨hB, hslots, hfields, husers⟩ := redirect_commit_walk hBA (s A).users
    s t hwf (hwf.nodup A) hne hfe hcf
  refine ⟨hB, ?_, hfields⟩
  rw [husers, filter_not_mem_self]

/-- Witness for the amended C6 at a concrete graph. -/
theorem C6_redirect_amended_witness :
    ∃ s', redirect cs6 0 2 = some s' ∧
      (∀ p ∈ (cs6 0).users, FwdEdge s' p.2 p.1 2) ∧ (s' 0).users = [] ∧
      (s' 0).fn = (cs6 0).fn ∧ (s' 0).inputs = (cs6 0).inputs := by
  obtain ⟨hB, hus, hf⟩ := C6_redirect_amended cs6 _ 0 2 cs6_wf (by decide)
    (by intro r hr; simp [cs6] at hr) rfl
  exact ⟨_, rfl, hB, hus, hf⟩

/-! ### Claim C7 (amended): `set_app` with an actual function node -/

/-- Committing the function-edge diff of `set_app`: afterwards the function
slot holds `f` and the input slots are untouched. -/
theorem setapp_phase1 {s t : GState} {a f : NodeId} {r1 : List Op}
    (hwf : WF s) (hops : set_succ_operations s a .FN (some f) = some r1)
    (hc : commit s r1 = some t) :
    WF t ∧ (t a).fwd .FN = some f ∧
    (∀ i, (t a).fwd (.IN i) = (s a).fwd (.IN i)) := by
  simp only [set_succ_operations] at hops
  rcases hfn : (s a).fn with _ | u
  · rw [hfn] at hops
    have hops2 : some [Op.link a f Role.FN] = some r1 := hops
    obtain rfl := Option.some_inj.mp hops2
    rw [commit_cons] at hc
    rcases h1 : processOperation s (Op.link a f Role.FN) with _ | t1
    · rw [h1] at hc
      cases hc
    rw [h1] at hc
    have ht : t1 = t := by
      have : some t1 = some t := hc
      exact Option.some_inj.mp this
    subst ht
    obtain ⟨hfree, hlf, hlu⟩ := link_spec h1
    refine ⟨wf_processOperation hwf h1, ?_, ?_⟩
    · rw [hlf a .FN, if_pos ⟨rfl, rfl⟩]
    · intro i
      rw [hlf a (.IN i), if_neg (fun hh => Role.noConfusion hh.2)]
  · rw [hfn] at hops
    have hops2 : (if (some f : Option NodeId) = some u then some ([] : List Op)
        else some ([Op.unlink a u Role.FN] ++ [Op.link a f Role.FN])) = some r1 := hops
    by_cases huf : f = u
    · subst huf
      rw [if_pos rfl] at hops2
      obtain rfl := Option.some_inj.mp hops2
      have ht : s = t := by
        have : some s = some t := hc
        exact Option.some_inj.mp this
      subst ht
      exact ⟨hwf, by rw [fwd_FN, hfn], fun i => rfl⟩
    · rw [if_neg (fun hh => huf (Option.some_inj.mp hh))] at hops2
      obtain rfl := Option.some_inj.mp hops2
      rw [List.singleton_append, commit_cons] at hc
      rcases h1 : processOperation s (Op.unlink a u Role.FN) with _ | t1
      · rw [h1] at hc
        cases hc
      rw [h1] at hc
      have hc1 : commit t1 [Op.link a f Role.FN] = some t := hc
      rw [commit_cons] at hc1
      rcases h2 : processOperation t1 (Op.link a f Role.FN) with _ | t2
      · rw [h2] at hc1
        cases hc1
      rw [h2] at hc1
      have ht : t2 = t := by
        have : some t2 = some t := hc1
        exact Option.some_inj.mp this
      subst ht
      obtain ⟨hufe, humem, huf1, huu1⟩ := unlink_spec h1
      obtain ⟨hlfree, hlf, hlu⟩ := link_spec h2
      refine ⟨wf_processOperation (wf_processOperation hwf h1) h2, ?_, ?_⟩
      · rw [hlf a .FN, if_pos ⟨rfl, rfl⟩]
      · intro i
        rw [hlf a (.IN i), if_neg (fun hh => Role.noConfusion hh.2),
          huf1 a (.IN i), if_neg (fun hh => Role.noConfusion hh.2)]

/-- Committing the unlink half of the input diff: all input slots from the
offset onwards are cleared; slots below the offset and the function slot are
untouched. -/
theorem setapp_unls_walk {a : NodeId} :
    ∀ (l : List (Option NodeId)) (k : Nat) (t t' : GState), WF t →
    (∀ j, (t a).fwd (.IN (k + j)) = l.getD j none) →
    commit t ((List.enumFrom k l).filterMap
      (fun p => p.2.map (fun inp => Op.unlink a inp (.IN p.1)))) = some t' →
    WF t' ∧ (∀ j, (t' a).fwd (.IN (k + j)) = none) ∧
    (∀ i, i < k → (t' a).fwd (.IN i) = (t a).fwd (.IN i)) ∧
    ((t' a).fwd .FN = (t a).fwd .FN) := by
  intro l
  induction l with
  | nil =>
    intro k t t' hwf hslots hc
    have ht : t = t' := by
      have : some t = some t' := hc
      exact Option.some_inj.mp this
    subst ht
    refine ⟨hwf, ?_, fun i _ => rfl, rfl⟩
    intro j
    rw [hslots j]
    rfl
  | cons o l2 ih =>
    intro k t t' hwf hslots hc
    rcases o with _ | u
    · have hrw : (List.enumFrom k (none :: l2)).filterMap
          (fun p => p.2.map (fun inp => Op.unlink a inp (.IN p.1))) =
          (List.enumFrom (k + 1) l2).filterMap
            (fun p => p.2.map (fun inp => Op.unlink a inp (.IN p.1))) := rfl
      rw [hrw] at hc
      have hslots2 : ∀ j, (t a).fwd (.IN (k + 1 + j)) = l2.getD j none := by
        intro j
        have := hslots (j + 1)
        rw [(by omega : k + (j + 1) = k + 1 + j)] at this
        exact this
      obtain ⟨hwf2, hge, hlt, hfn⟩ := ih (k + 1) t t' hwf hslots2 hc
      refine ⟨hwf2, ?_, ?_, hfn⟩
      · intro j
        rcases j with _ | j
        · rw [Nat.add_zero, hlt k (by omega)]
          have := hslots 0
          simpa using this
        · have := hge j
          rw [(by omega : k + 1 + j = k + (j + 1))] at this
          exact this
      · intro i hi
        exact hlt i (by omega)
    · have hrw : (List.enumFrom k (some u :: l2)).filterMap
          (fun p => p.2.map (fun inp => Op.unlink a inp (.IN p.1))) =
          Op.unlink a u (.IN k) :: (List.enumFrom (k + 1) l2).filterMap
            (fun p => p.2.map (fun inp => Op.unlink a inp (.IN p.1))) := rfl
      rw [hrw, commit_cons] at hc
      rcases h1 : processOperation t (Op.unlink a u (.IN k)) with _ | t1
      · rw [h1] at hc
        cases hc
      rw [h1] at hc
      have hc1 : commit t1 ((List.enumFrom (k + 1) l2).filterMap
          (fun p => p.2.map (fun inp => Op.unlink a inp (.IN p.1)))) = some t' := hc
      obtain ⟨hufe, humem, huf, huu⟩ := unlink_spec h1
      have hwf1 := wf_processOperation hwf h1
      have hslots2 : ∀ j, (t1 a).fwd (.IN (k + 1 + j)) = l2.getD j none := by
        intro j
        rw [huf a (.IN (k + 1 + j)),
          if_neg (fun hh => by
            have := hh.2
            have hkj : k + 1 + j = k := Role.IN.inj this
            omega)]
        have := hslots (j + 1)
        rw [(by omega : k + (j + 1) = k + 1 + j)] at this
        exact this
      obtain ⟨hwf2, hge, hlt, hfn⟩ := ih (k + 1) t1 t' hwf1 hslots2 hc1
      refine ⟨hwf2, ?_, ?_, ?_⟩
      · intro j
        rcases j with _ | j
        · rw [Nat.add_zero, hlt k (by omega), huf a (.IN k), if_pos ⟨rfl, rfl⟩]
        · have := hge j
          rw [(by omega : k + 1 + j = k + (j + 1))] at this
          exact this
      · intro i hi
        rw [hlt i (by omega), huf a (.IN i),
          if_neg (fun hh => by
            have hik : i = k := Role.IN.inj hh.2
            omega)]
      · rw [hfn, huf a .FN, if_neg (fun hh => Role.noConfusion hh.2)]

/-- Committing the link half of the input diff: starting from cleared
slots, each slot from the offset onwards ends up holding exactly the
corresponding entry of the new input list. -/
theorem setapp_lnks_walk {a : NodeId} :
    ∀ (l : List (Option NodeId)) (k : Nat) (t t' : GState), WF t →
    (∀ j, (t a).fwd (.IN (k + j)) = none) →
    commit t ((List.enumFrom k l).filterMap
      (fun p => p.2.map (fun inp => Op.link a inp (.IN p.1)))) = some t' →
    WF t' ∧ (∀ j, (t' a).fwd (.IN (k + j)) = l.getD j none) ∧
    (∀ i, i < k → (t' a).fwd (.IN i) = (t a).fwd (.IN i)) ∧
    ((t' a).fwd .FN = (t a).fwd .FN) := by
  intro l
  induction l with
  | nil =>
    intro k t t' hwf hslots hc
    have ht : t = t' := by
      have : some t = some t' := hc
      exact Option.some_inj.mp this
    subst ht
    refine ⟨hwf, ?_, fun i _ => rfl, rfl⟩
    intro j
    rw [hslots j]
    rfl
  | cons o l2 ih =>
    intro k t t' hwf hslots hc
    rcases o with _ | u
    · have hrw : (List.enumFrom k (none :: l2)).filterMap
          (fun p => p.2.map (fun inp => Op.link a inp (.IN p.1))) =
          (List.enumFrom (k + 1) l2).filterMap
            (fun p => p.2.map (fun inp => Op.link a inp (.IN p.1))) := rfl
      rw [hrw] at hc
      have hslots2 : ∀ j, (t a).fwd (.IN (k + 1 + j)) = none := by
        intro j
        have := hslots (j + 1)
        rw [(by omega : k + (j + 1) = k + 1 + j)] at this
        exact this
      obtain ⟨hwf2, hge, hlt, hfn⟩ := ih (k + 1) t t' hwf hslots2 hc
      refine ⟨hwf2, ?_, ?_, hfn⟩
      · intro j
        rcases j with _ | j
        · rw [Nat.add_zero, hlt k (by omega)]
          have := hslots 0
          simpa using this
        · have := hge j
          rw [(by omega : k + 1 + j = k + (j + 1))] at this
          exact this
      · intro i hi
        exact hlt i (by omega)
    · have hrw : (List.enumFrom k (some u :: l2)).filterMap
          (fun p => p.2.map (fun inp => Op.link a inp (.IN p.1))) =
          Op.link a u (.IN k) :: (List.enumFrom (k + 1) l2).filterMap
            (fun p => p.2.map (fun inp => Op.link a inp (.IN p.1))) := rfl
      rw [hrw, commit_cons] at hc
      rcases h1 : processOperation t (Op.link a u (.IN k)) with _ | t1
      · rw [h1] at hc
        cases hc
      rw [h1] at hc
      have hc1 : commit t1 ((List.enumFrom (k + 1) l2).filterMap
          (fun p => p.2.map (fun inp => Op.link a inp (.IN p.1)))) = some t' := hc
      obtain ⟨hlfree, hlf, hlu⟩ := link_spec h1
      have hwf1 := wf_processOperation hwf h1
      have hslots2 : ∀ j, (t1 a).fwd (.IN (k + 1 + j)) = none := by
        intro j
        rw [hlf a (.IN (k + 1 + j)),
          if_neg (fun hh => by
            have hkj : k + 1 + j = k := Role.IN.inj hh.2
            omega)]
        have := hslots (j + 1)
        rw [(by omega : k + (j + 1) = k + 1 + j)] at this
        exact this
      obtain ⟨hwf2, hge, hlt, hfn⟩ := ih (k + 1) t1 t' hwf1 hslots2 hc1
      refine ⟨hwf2, ?_, ?_, ?_⟩
      · intro j
        rcases j with _ | j
        · rw [Nat.add_zero, hlt k (by omega), hlf a (.IN k), if_pos ⟨rfl, rfl⟩]
          rfl
        · have := hge j
          rw [(by omega : k + 1 + j = k + (j + 1))] at this
          exact this
      · intro i hi
        rw [hlt i (by omega), hlf a (.IN i),
          if_neg (fun hh => by
            have hik : i = k := Role.IN.inj hh.2
            omega)]
      · rw [hfn, hlf a .FN, if_neg (fun hh => Role.noConfusion hh.2)]

/-- Amended claim C7: when the new `fn` is an actual node, `set_app(fn,
inputs)` retargets both the function edge and the entire ordered input-edge
list as one composed diff: afterwards the node's function edge is `fn` and
its input slot at every index reads exactly the given list's entry at that
index (absent or cleared slots read as empty).  When `fn` is `None`, only
the function edge is cleared and the inputs are untouched (see the
counterexample to the original claim). -/
theorem C7_set_app_amended (s s' : GState) (a f : NodeId)
    (inputs : List (Option NodeId)) (hwf : WF s)
    (h : setApp s a (some f) inputs = some s') :
    WF s' ∧ (s' a).fn = some f ∧
    (∀ i, getInput (s' a) i = inputs.getD i none) := by
  unfold setApp at h
  rcases hops : set_app_operations s a (some f) inputs with _ | ops
  · rw [hops] at h
    cases h
  rw [hops] at h
  simp only [set_app_operations] at hops
  rcases hr1 : set_succ_operations s a Role.FN (some f) with _ | r1
  · rw [hr1] at hops
    cases hops
  rw [hr1] at hops
  have hops2 : some (r1 ++
      ((s a).inputs.enum).filterMap
        (fun p => p.2.map (fun inp => Op.unlink a inp (.IN p.1))) ++
      (inputs.enum).filterMap
        (fun p => p.2.map (fun inp => Op.link a inp (.IN p.1)))) = some ops := hops
  obtain rfl := Option.some_inj.mp hops2
  have h2 : commit s (r1 ++
      ((s a).inputs.enum).filterMap
        (fun p => p.2.map (fun inp => Op.unlink a inp (.IN p.1))) ++
      (inputs.enum).filterMap
        (fun p => p.2.map (fun inp => Op.link a inp (.IN p.1)))) = some s' := h
  rw [commit_append] at h2
  rcases hc12 : commit s (r1 ++
      ((s a).inputs.enum).filterMap
        (fun p => p.2.map (fun inp => Op.unlink a inp (.IN p.1)))) with _ | t2
  · rw [hc12] at h2
    cases h2
  rw [hc12] at h2
  have hc3 : commit t2 ((inputs.enum).filterMap
      (fun p => p.2.map (fun inp => Op.link a inp (.IN p.1)))) = some s' := h2
  rw [commit_append] at hc12
  rcases hc1 : commit s r1 with _ | t1
  · rw [hc1] at hc12
    cases hc12
  rw [hc1] at hc12
  have hc2 : commit t1 (((s a).inputs.enum).filterMap
      (fun p => p.2.map (fun inp => Op.unlink a inp (.IN p.1)))) = some t2 := hc12
  obtain ⟨hwf1, hfn1, hins1⟩ := setapp_phase1 hwf hr1 hc1
  have hslots1 : ∀ j, (t1 a).fwd (.IN (0 + j)) = (s a).inputs.getD j none := by
    intro j
    rw [Nat.zero_add, hins1 j, fwd_IN]
  have hc2b : commit t1 ((List.enumFrom 0 (s a).inputs).filterMap
      (fun p => p.2.map (fun inp => Op.unlink a inp (.IN p.1)))) = some t2 := hc2
  obtain ⟨hwf2, hclr, hlt2, hfn2⟩ :=
    setapp_unls_walk (s a).inputs 0 t1 t2 hwf1 hslots1 hc2b
  have hc3b : commit t2 ((List.enumFrom 0 inputs).filterMap
      (fun p => p.2.map (fun inp => Op.link a inp (.IN p.1)))) = some s' := hc3
  obtain ⟨hwf3, hset, hlt3, hfn3⟩ :=
    setapp_lnks_walk inputs 0 t2 s' hwf2 hclr hc3b
  refine ⟨hwf3, ?_, ?_⟩
  · have hres : (s' a).fwd .FN = some f := by
      rw [hfn3, hfn2]
      exact hfn1
    rw [← fwd_FN]
    exact hres
  · intro i
    have hres := hset i
    rw [Nat.zero_add] at hres
    exact hres

/-- Witness for the amended C7 at a concrete graph. -/
theorem C7_set_app_amended_witness :
    ∃ s', setApp cs7 0 (some 1) [none, some 2] = some s' ∧ WF s' ∧
      (s' 0).fn = some 1 ∧
      (∀ i, getInput (s' 0) i = [none, some 2].getD i none) := by
  obtain ⟨hwf, hfn, hins⟩ :=
    C7_set_app_amended cs7 _ 0 1 [none, some 2] cs7_wf rfl
  exact ⟨_, rfl, hwf, hfn, hins⟩

/-! ### Claim C3 (amended): toposort correctness on acyclic, users-closed
graphs.

Acyclicity is expressed by a rank function strictly decreasing along
dependency edges; `U` is a finite support for the heap. -/

theorem mem_of_getD {l : List (Option NodeId)} {i : Nat} {b : NodeId}
    (h : l.getD i none = some b) : some b ∈ l := by
  rcases Nat.lt_or_ge i l.length with hi | hi
  · rw [List.getD_eq_getElem _ _ hi] at h
    exact h ▸ List.getElem_mem hi
  · rw [List.getD_eq_default _ _ hi] at h
    cases h

theorem getD_of_mem {l : List (Option NodeId)} {b : NodeId}
    (h : some b ∈ l) : ∃ i, l.getD i none = some b := by
  obtain ⟨i, hi, hget⟩ := List.mem_iff_getElem.mp h
  exact ⟨i, by rw [List.getD_eq_getElem _ _ hi]; exact hget⟩

theorem fwd_isEdge {s : GState} {a b : NodeId} {r : Role}
    (h : (s a).fwd r = some b) : IsEdge s a b := by
  rcases r with _ | i
  · exact Or.inl h
  · rw [fwd_IN] at h
    exact Or.inr (mem_of_getD h)

theorem isEdge_fwd {s : GState} {a b : NodeId} (h : IsEdge s a b) :
    ∃ r, (s a).fwd r = some b := by
  rcases h with h | h
  · exact ⟨.FN, h⟩
  · obtain ⟨i, hi⟩ := getD_of_mem h
    exact ⟨.IN i, hi⟩

theorem mem_usersIds {d : NodeData} {u : NodeId} :
    u ∈ usersIds d ↔ ∃ r, (r, u) ∈ d.users := by
  unfold usersIds
  rw [List.mem_dedup, List.mem_map]
  constructor
  · rintro ⟨p, hp, rfl⟩
    exact ⟨p.1, hp⟩
  · rintro ⟨r, hr⟩
    exact ⟨(r, u), hr, rfl⟩

theorem usersIds_nodup (d : NodeData) : (usersIds d).Nodup := List.nodup_dedup _

/-- Under the symmetry invariant, membership in the (deduplicated) user-id
set is exactly the reverse of the dependency-edge relation. -/
theorem mem_usersIds_iff_isEdge {s : GState} (hwf : WF s) {u k : NodeId} :
    u ∈ usersIds (s k) ↔ IsEdge s u k := by
  rw [mem_usersIds]
  constructor
  · rintro ⟨r, hr⟩
    exact fwd_isEdge ((hwf.sym u r k).mpr hr)
  · intro he
    obtain ⟨r, hr⟩ := isEdge_fwd he
    exact ⟨r, (hwf.sym u r k).mp hr⟩

theorem usersIds_empty_of_no_users {d : NodeData} (h : d.users = []) :
    usersIds d = [] := by
  unfold usersIds
  rw [h]
  rfl

section ToposortProof

variable {s : GState} {out : NodeId} {U : List NodeId} {rank : NodeId → Nat}

theorem reach_rank_le (hrank : ∀ a b, IsEdge s a b → rank b < rank a) :
    ∀ {x : NodeId}, Reach s out x → rank x ≤ rank out := by
  intro x h
  induction h with
  | refl => exact Nat.le_refl _
  | step hr hc he ih => exact Nat.le_of_lt (Nat.lt_of_lt_of_le (hrank _ _ he) ih)

theorem no_self_edge (hrank : ∀ a b, IsEdge s a b → rank b < rank a)
    (a : NodeId) : ¬ IsEdge s a a :=
  fun h => absurd (hrank a a h) (Nat.lt_irrefl _)

/-- Under acyclicity and users-closedness, the output node has no users at
all: a user of the output would be a reachable computation node with an
edge back into the output, contradicting the rank function. -/
theorem users_out_empty (hwf : WF s)
    (hrank : ∀ a b, IsEdge s a b → rank b < rank a)
    (hclosed : ∀ b, CompReach s out b → ∀ p ∈ (s b).users, CompReach s out p.2)
    (hcomp : isComputation (s out) = true) :
    (s out).users = [] := by
  rw [List.eq_nil_iff_forall_not_mem]
  intro p hp
  have hcr : CompReach s out p.2 := hclosed out ⟨Reach.refl, hcomp⟩ p hp
  have hedge : IsEdge s p.2 out :=
    fwd_isEdge ((hwf.sym p.2 p.1 out).mpr (by simpa using hp))
  have h1 : rank out < rank p.2 := hrank _ _ hedge
  have h2 : rank p.2 ≤ rank out := reach_rank_le hrank hcr.1
  omega

end ToposortProof

theorem mem_addReady {x y : NodeId} {l : List NodeId} :
    y ∈ addReady x l ↔ y = x ∨ y ∈ l := by
  unfold addReady
  split
  · rename_i hx
    constructor
    · exact fun h => Or.inr h
    · rintro (rfl | h)
      · exact hx
      · exact h
  · rw [List.mem_append, List.mem_singleton]
    tauto

theorem nodup_addReady {x : NodeId} {l : List NodeId} (h : l.Nodup) :
    (addReady x l).Nodup := by
  unfold addReady
  split
  · exact h
  · rename_i hx
    rw [List.nodup_append]
    exact ⟨h, List.nodup_singleton x, by
      intro a ha hb
      rw [List.mem_singleton] at hb
      subst hb
      exact hx ha⟩

theorem length_addReady_of_not_mem {x : NodeId} {l : List NodeId}
    (h : x ∉ l) : (addReady x l).length = l.length + 1 := by
  unfold addReady
  rw [if_neg h, List.length_append, List.length_singleton]

theorem lookup_setAssoc_self (k : NodeId) (v : Option (List NodeId))
    (l : List (NodeId × Option (List NodeId))) :
    (setAssoc k v l).lookup k = some v := by
  induction l with
  | nil =>
    simp [setAssoc, List.lookup]
  | cons kv rest ih =>
    obtain ⟨k', v'⟩ := kv
    unfold setAssoc
    by_cases hk : k' = k
    · rw [if_pos hk]
      simp [List.lookup]
    · rw [if_neg hk]
      simp only [List.lookup]
      rw [show (k == k') = false from beq_eq_false_iff_ne.mpr (fun e => hk e.symm)]
      exact ih

theorem lookup_setAssoc_ne {k k' : NodeId} (v : Option (List NodeId))
    (l : List (NodeId × Option (List NodeId))) (h : k' ≠ k) :
    (setAssoc k v l).lookup k' = l.lookup k' := by
  induction l with
  | nil =>
    simp only [setAssoc, List.lookup]
    rw [show (k' == k) = false from beq_eq_false_iff_ne.mpr h]
  | cons kv rest ih =>
    obtain ⟨k0, v0⟩ := kv
    unfold setAssoc
    by_cases hk : k0 = k
    · rw [if_pos hk]
      subst hk
      simp only [List.lookup]
      rw [show (k' == k0) = false from beq_eq_false_iff_ne.mpr h]
    · rw [if_neg hk]
      simp only [List.lookup]
      by_cases hk0 : k' = k0
      · rw [show (k' == k0) = true from beq_iff_eq.mpr hk0]
      · rw [show (k' == k0) = false from beq_eq_false_iff_ne.mpr hk0]
        exact ih

theorem mem_keys_setAssoc {k k0 : NodeId} {v : Option (List NodeId)}
    {l : List (NodeId × Option (List NodeId))} :
    k0 ∈ (setAssoc k v l).map Prod.fst → k0 ∈ l.map Prod.fst ∨ k0 = k := by
  induction l with
  | nil =>
    intro h
    simp [setAssoc] at h
    exact Or.inr h
  | cons kv rest ih =>
    obtain ⟨k1, v1⟩ := kv
    intro h
    unfold setAssoc at h
    by_cases hk1 : k1 = k
    · rw [if_pos hk1] at h
      rw [List.map_cons, List.mem_cons] at h
      rcases h with h | h
      · exact Or.inr h
      · exact Or.inl (by rw [List.map_cons, List.mem_cons]; exact Or.inr h)
    · rw [if_neg hk1] at h
      rw [List.map_cons, List.mem_cons] at h
      rcases h with h | h
      · exact Or.inl (by rw [List.map_cons, List.mem_cons]; exact Or.inl h)
      · rcases ih h with h2 | h2
        · exact Or.inl (by rw [List.map_cons, List.mem_cons]; exact Or.inr h2)
        · exact Or.inr h2

theorem keys_setAssoc_nodup {k : NodeId} {v : Option (List NodeId)}
    {l : List (NodeId × Option (List NodeId))}
    (h : (l.map Prod.fst).Nodup) : ((setAssoc k v l).map Prod.fst).Nodup := by
  induction l with
  | nil => simp [setAssoc]
  | cons kv rest ih =>
    obtain ⟨k1, v1⟩ := kv
    rw [List.map_cons, List.nodup_cons] at h
    unfold setAssoc
    by_cases hk1 : k1 = k
    · rw [if_pos hk1]
      rw [List.map_cons, List.nodup_cons]
      subst hk1
      exact ⟨h.1, h.2⟩
    · rw [if_neg hk1]
      rw [List.map_cons, List.nodup_cons]
      refine ⟨?_, ih h.2⟩
      intro hmem
      rcases mem_keys_setAssoc hmem with h2 | h2
      · exact h.1 h2
      · exact hk1 h2

theorem erase_eq_nil_all_eq {l : List NodeId} {x : NodeId} (hnd : l.Nodup)
    (h : l.erase x = []) : ∀ u ∈ l, u = x := by
  intro u hu
  by_contra hne
  have : u ∈ l.erase x := (hnd.mem_erase_iff).mpr ⟨hne, hu⟩
  rw [h] at this
  cases this

theorem filter_length_flip {U : List NodeId} (hU : U.Nodup)
    {p q : NodeId → Bool} {x : NodeId} (hx : x ∈ U) (hpx : p x = true)
    (hqx : q x = false) (hother : ∀ y ∈ U, y ≠ x → p y = q y) :
    (U.filter q).length + 1 = (U.filter p).length := by
  induction U with
  | nil => cases hx
  | cons y rest ih =>
    have hnd2 := List.nodup_cons.mp hU
    rcases List.mem_cons.mp hx with rfl | hx2
    · rw [List.filter_cons, List.filter_cons, hpx, hqx]
      simp only [if_true, Bool.false_eq_true, if_false, List.length_cons]
      have : rest.filter q = rest.filter p := by
        apply List.filter_congr
        intro z hz
        exact (hother z (List.mem_cons_of_mem _ hz)
          (fun e => hnd2.1 (e ▸ hz))).symm
      rw [this]
    · have hyx : y ≠ x := fun e => hnd2.1 (e ▸ hx2)
      rw [List.filter_cons, List.filter_cons,
        hother y (List.mem_cons_self y rest) hyx]
      split
      · simp only [List.length_cons]
        rw [← ih hnd2.2 hx2 (fun z hz hzx =>
          hother z (List.mem_cons_of_mem _ hz) hzx)]
      · exact ih hnd2.2 hx2 (fun z hz hzx =>
          hother z (List.mem_cons_of_mem _ hz) hzx)

/-- The invariant of the inner successor loop, relative to the node being
processed and the processed set `P_old` as it was before this iteration.
Entries for keys still in `todo` are stale (they reference `P_old`);
entries for other keys are current (they reference `ts.processed`, which is
`node :: P_old` throughout the inner loop). -/
structure PSInv (s : GState) (out node : NodeId) (P_old : List NodeId)
    (todo : List NodeId) (ts : TopoState) : Prop where
  procEq : ts.processed = node :: P_old
  readyNotProc : ∀ x ∈ ts.ready, x ∉ ts.processed
  readyReach : ∀ x ∈ ts.ready, Reach s out x
  readyUsers : ∀ x ∈ ts.ready, ∀ u ∈ usersIds (s x), u ∈ ts.processed
  readyNodup : ts.ready.Nodup
  readyPred : ∀ x ∈ ts.ready, x = out ∨ ts.pred.lookup x = some none
  predKeys : (ts.pred.map Prod.fst).Nodup
  predSome : ∀ k l, ts.pred.lookup k = some (some l) →
    l ≠ [] ∧ l.Nodup ∧ ∀ u, (u ∈ l ↔
      (u ∈ usersIds (s k) ∧ u ∉ (if k ∈ todo then P_old else ts.processed)))
  predNone : ∀ k, ts.pred.lookup k = some none →
    (∀ u ∈ usersIds (s k), u ∈ (if k ∈ todo then P_old else ts.processed)) ∧
    (k ∈ ts.ready ∨ k ∈ ts.processed ∨ isComputation (s k) = false)
  predAbsent : ∀ k, ts.pred.lookup k = none →
    ∀ u ∈ usersIds (s k), u ∉ (if k ∈ todo then P_old else ts.processed)

/-- The loop measure: ready-set size plus the number of support nodes whose
`pred` entry is not yet the `None` marker. -/
def muSum (U : List NodeId) (ts : TopoState) : Nat :=
  (U.filter (fun x => decide (ts.pred.lookup x ≠ some none))).length
    + ts.ready.length

theorem if_mem_cons_ne {k succ : NodeId} {more : List NodeId}
    (hk : k ≠ succ) (X Y : List NodeId) :
    (if k ∈ succ :: more then X else Y) = (if k ∈ more then X else Y) := by
  have h : (k ∈ succ :: more) ↔ (k ∈ more) := by
    rw [List.mem_cons]
    simp [hk]
  rw [if_congr h rfl rfl]

/-- Processing one successor whose pending-user set empties: the entry
becomes the `None` marker and the successor joins the ready set. -/
theorem ps_step_empty
    {s : GState} {out node succ : NodeId} {P_old : List NodeId}
    {more : List NodeId} {ts : TopoState} {d : List NodeId}
    {U : List NodeId} {rank : NodeId → Nat}
    (hwf : WF s)
    (hrank : ∀ a b, IsEdge s a b → rank b < rank a)
    (hsupp : ∀ a, a ∉ U → s a = NodeData.empty) (hUnd : U.Nodup)
    (husersOut : usersIds (s out) = [])
    (hnotold : node ∉ P_old)
    (hprocU : ∀ x ∈ P_old, ∀ u ∈ usersIds (s x), u ∈ P_old)
    (hReachNode : Reach s out node)
    (hcompnode : isComputation (s node) = true)
    (hedge : IsEdge s node succ) (hsmore : succ ∉ more)
    (hinv : PSInv s out node P_old (succ :: more) ts)
    (hdn : d.Nodup)
    (hdm : ∀ u, u ∈ d ↔ (u ∈ usersIds (s succ) ∧ u ∉ P_old))
    (hnolk : ts.pred.lookup succ ≠ some none)
    (herase : d.erase node = []) :
    PSInv s out node P_old more
      { ts with pred := setAssoc succ none ts.pred,
                ready := addReady succ ts.ready } ∧
    muSum U ({ ts with pred := setAssoc succ none ts.pred, ready := addReady succ ts.ready }) = muSum U ts := by
  have hnodeusers : node ∈ usersIds (s succ) :=
    (mem_usersIds_iff_isEdge hwf).mpr hedge
  have hsucc_ne_out : succ ≠ out := by
    intro e
    rw [e, husersOut] at hnodeusers
    cases hnodeusers
  have hsucc_notready : succ ∉ ts.ready := by
    intro hmem
    rcases hinv.readyPred succ hmem with h | h
    · exact hsucc_ne_out h
    · exact hnolk h
  have hsucc_notproc : succ ∉ ts.processed := by
    rw [hinv.procEq]
    intro hmem
    rcases List.mem_cons.mp hmem with rfl | hmem2
    · exact no_self_edge hrank _ hedge
    · exact hnotold (hprocU succ hmem2 node hnodeusers)
  have hall : ∀ u ∈ d, u = node := erase_eq_nil_all_eq hdn herase
  have hsuccU : succ ∈ U := by
    by_contra hnot
    have he := hsupp succ hnot
    rw [he] at hnodeusers
    simp [usersIds, NodeData.empty] at hnodeusers
  refine ⟨⟨?_, ?_, ?_, ?_, ?_, ?_, ?_, ?_, ?_, ?_⟩, ?_⟩
  · exact hinv.procEq
  · intro x hx
    rcases mem_addReady.mp hx with rfl | hx2
    · exact hsucc_notproc
    · exact hinv.readyNotProc x hx2
  · intro x hx
    rcases mem_addReady.mp hx with rfl | hx2
    · exact Reach.step hReachNode hcompnode hedge
    · exact hinv.readyReach x hx2
  · intro x hx u hu
    rcases mem_addReady.mp hx with rfl | hx2
    · by_cases hp : u ∈ P_old
      · show u ∈ ts.processed
        rw [hinv.procEq]
        exact List.mem_cons_of_mem _ hp
      · have hud := (hdm u).mpr ⟨hu, hp⟩
        rw [hall u hud]
        show node ∈ ts.processed
        rw [hinv.procEq]
        exact List.mem_cons_self _ _
    · exact hinv.readyUsers x hx2 u hu
  · exact nodup_addReady hinv.readyNodup
  · intro x hx
    rcases mem_addReady.mp hx with rfl | hx2
    · exact Or.inr (lookup_setAssoc_self _ _ _)
    · rcases hinv.readyPred x hx2 with h | h
      · exact Or.inl h
      · refine Or.inr ?_
        rw [lookup_setAssoc_ne _ _ (fun e => hsucc_notready (by rw [← e]; exact hx2))]
        exact h
  · exact keys_setAssoc_nodup hinv.predKeys
  · intro k l hlk
    by_cases hk : k = succ
    · subst hk
      rw [lookup_setAssoc_self] at hlk
      exact absurd hlk (by simp)
    · rw [lookup_setAssoc_ne _ _ hk] at hlk
      obtain ⟨h1, h2, h3⟩ := hinv.predSome k l hlk
      refine ⟨h1, h2, ?_⟩
      intro u
      rw [h3 u, if_mem_cons_ne hk]
  · intro k hlk
    by_cases hk : k = succ
    · subst hk
      constructor
      · intro u hu
        rw [if_neg hsmore]
        by_cases hp : u ∈ P_old
        · show u ∈ ts.processed
          rw [hinv.procEq]
          exact List.mem_cons_of_mem _ hp
        · have hud := (hdm u).mpr ⟨hu, hp⟩
          rw [hall u hud]
          show node ∈ ts.processed
          rw [hinv.procEq]
          exact List.mem_cons_self _ _
      · exact Or.inl (mem_addReady.mpr (Or.inl rfl))
    · rw [lookup_setAssoc_ne _ _ hk] at hlk
      obtain ⟨h1, h2⟩ := hinv.predNone k hlk
      constructor
      · intro u hu
        rw [← if_mem_cons_ne hk]
        exact h1 u hu
      · rcases h2 with h | h | h
        · exact Or.inl (mem_addReady.mpr (Or.inr h))
        · exact Or.inr (Or.inl h)
        · exact Or.inr (Or.inr h)
  · intro k hlk
    by_cases hk : k = succ
    · subst hk
      rw [lookup_setAssoc_self] at hlk
      cases hlk
    · rw [lookup_setAssoc_ne _ _ hk] at hlk
      intro u hu
      rw [← if_mem_cons_ne hk]
      exact hinv.predAbsent k hlk u hu
  · show (U.filter (fun x =>
        decide ((setAssoc succ none ts.pred).lookup x ≠ some none))).length
      + (addReady succ ts.ready).length = muSum U ts
    have hflip : (U.filter (fun x =>
        decide ((setAssoc succ none ts.pred).lookup x ≠ some none))).length + 1 =
        (U.filter (fun x => decide (ts.pred.lookup x ≠ some none))).length := by
      apply filter_length_flip hUnd hsuccU
      · exact decide_eq_true hnolk
      · rw [lookup_setAssoc_self]
        simp
      · intro y hy hyne
        rw [lookup_setAssoc_ne _ _ hyne]
    rw [length_addReady_of_not_mem hsucc_notready]
    unfold muSum
    omega

/-- Processing one successor whose pending-user set stays non-empty: the
entry is updated in place, nothing joins the ready set. -/
theorem ps_step_nonempty
    {s : GState} {out node succ : NodeId} {P_old : List NodeId}
    {more : List NodeId} {ts : TopoState} {d : List NodeId}
    {U : List NodeId}
    (hwf : WF s)
    (husersOut : usersIds (s out) = [])
    (hnotold : node ∉ P_old)
    (hedge : IsEdge s node succ) (hsmore : succ ∉ more)
    (hinv : PSInv s out node P_old (succ :: more) ts)
    (hdn : d.Nodup)
    (hdm : ∀ u, u ∈ d ↔ (u ∈ usersIds (s succ) ∧ u ∉ P_old))
    (hnolk : ts.pred.lookup succ ≠ some none)
    (herase : d.erase node ≠ []) :
    PSInv s out node P_old more
      { ts with pred := setAssoc succ (some (d.erase node)) ts.pred } ∧
    muSum U ({ ts with pred := setAssoc succ (some (d.erase node)) ts.pred }) =
      muSum U ts := by
  have hnodeusers : node ∈ usersIds (s succ) :=
    (mem_usersIds_iff_isEdge hwf).mpr hedge
  have hsucc_ne_out : succ ≠ out := by
    intro e
    rw [e, husersOut] at hnodeusers
    cases hnodeusers
  have hsucc_notready : succ ∉ ts.ready := by
    intro hmem
    rcases hinv.readyPred succ hmem with h | h
    · exact hsucc_ne_out h
    · exact hnolk h
  refine ⟨⟨?_, ?_, ?_, ?_, ?_, ?_, ?_, ?_, ?_, ?_⟩, ?_⟩
  · exact hinv.procEq
  · exact hinv.readyNotProc
  · exact hinv.readyReach
  · exact hinv.readyUsers
  · exact hinv.readyNodup
  · intro x hx
    rcases hinv.readyPred x hx with h | h
    · exact Or.inl h
    · refine Or.inr ?_
      rw [lookup_setAssoc_ne _ _ (fun e => hsucc_notready (by rw [← e]; exact hx))]
      exact h
  · exact keys_setAssoc_nodup hinv.predKeys
  · intro k l hlk
    by_cases hk : k = succ
    · subst hk
      rw [lookup_setAssoc_self] at hlk
      have hl : l = d.erase node := by
        have := Option.some_inj.mp hlk
        exact (Option.some_inj.mp this).symm
      subst hl
      refine ⟨herase, hdn.erase node, ?_⟩
      intro u
      rw [hdn.mem_erase_iff, if_neg hsmore]
      constructor
      · rintro ⟨hne, hmemd⟩
        obtain ⟨hu, hp⟩ := (hdm u).mp hmemd
        refine ⟨hu, ?_⟩
        show u ∉ ts.processed
        rw [hinv.procEq]
        intro hmem
        rcases List.mem_cons.mp hmem with rfl | h
        · exact hne rfl
        · exact hp h
      · rintro ⟨hu, hnp⟩
        have hnp2 : u ∉ ts.processed := hnp
        rw [hinv.procEq] at hnp2
        refine ⟨?_, (hdm u).mpr ⟨hu, ?_⟩⟩
        · intro e
          exact hnp2 (e ▸ List.mem_cons_self node P_old)
        · intro h
          exact hnp2 (List.mem_cons_of_mem _ h)
    · rw [lookup_setAssoc_ne _ _ hk] at hlk
      obtain ⟨h1, h2, h3⟩ := hinv.predSome k l hlk
      refine ⟨h1, h2, ?_⟩
      intro u
      rw [h3 u, if_mem_cons_ne hk]
  · intro k hlk
    by_cases hk : k = succ
    · subst hk
      rw [lookup_setAssoc_self] at hlk
      exact absurd hlk (by simp)
    · rw [lookup_setAssoc_ne _ _ hk] at hlk
      obtain ⟨h1, h2⟩ := hinv.predNone k hlk
      constructor
      · intro u hu
        rw [← if_mem_cons_ne hk]
        exact h1 u hu
      · exact h2
  · intro k hlk
    by_cases hk : k = succ
    · subst hk
      rw [lookup_setAssoc_self] at hlk
      cases hlk
    · rw [lookup_setAssoc_ne _ _ hk] at hlk
      intro u hu
      rw [← if_mem_cons_ne hk]
      exact hinv.predAbsent k hlk u hu
  · show (U.filter (fun x =>
        decide ((setAssoc succ (some (d.erase node)) ts.pred).lookup x
          ≠ some none))).length + ts.ready.length = muSum U ts
    unfold muSum
    have hfeq : U.filter (fun x =>
        decide ((setAssoc succ (some (d.erase node)) ts.pred).lookup x
          ≠ some none)) =
        U.filter (fun x => decide (ts.pred.lookup x ≠ some none)) := by
      apply List.filter_congr
      intro y hy
      by_cases hys : y = succ
      · subst hys
        rw [lookup_setAssoc_self]
        rw [decide_eq_true (by simp), decide_eq_true hnolk]
      · rw [lookup_setAssoc_ne _ _ hys]
    rw [hfeq]

/-- Full specification of the inner successor loop: it succeeds, leaves
processed/results untouched, only grows the ready set, re-establishes the
invariant with no staleness left, and preserves the loop measure. -/
theorem processSuccs_spec
    {s : GState} {out node : NodeId} {P_old : List NodeId}
    {U : List NodeId} {rank : NodeId → Nat}
    (hwf : WF s)
    (hrank : ∀ a b, IsEdge s a b → rank b < rank a)
    (hsupp : ∀ a, a ∉ U → s a = NodeData.empty) (hUnd : U.Nodup)
    (husersOut : usersIds (s out) = [])
    (hnotold : node ∉ P_old)
    (hprocU : ∀ x ∈ P_old, ∀ u ∈ usersIds (s x), u ∈ P_old)
    (hReachNode : Reach s out node)
    (hcompnode : isComputation (s node) = true) :
    ∀ (todo : List NodeId) (ts : TopoState),
    todo.Nodup → (∀ x ∈ todo, IsEdge s node x) →
    PSInv s out node P_old todo ts →
    ∃ ts', processSuccs s node todo ts = .ok ts' ∧
      ts'.processed = ts.processed ∧ ts'.results = ts.results ∧
      (∀ x ∈ ts.ready, x ∈ ts'.ready) ∧
      PSInv s out node P_old [] ts' ∧
      muSum U ts' = muSum U ts := by
  intro todo
  induction todo with
  | nil =>
    intro ts hnd hedges hinv
    exact ⟨ts, rfl, rfl, rfl, fun x hx => hx, hinv, rfl⟩
  | cons succ more ih =>
    intro ts hnd hedges hinv
    have hndc := List.nodup_cons.mp hnd
    have hedge : IsEdge s node succ := hedges succ (List.mem_cons_self _ _)
    have hnodeusers : node ∈ usersIds (s succ) :=
      (mem_usersIds_iff_isEdge hwf).mpr hedge
    rcases hlk : ts.pred.lookup succ with _ | v
    · have habs : ∀ u ∈ usersIds (s succ), u ∉ P_old := by
        intro u hu
        have h2 := hinv.predAbsent succ hlk u hu
        rw [if_pos (List.mem_cons_self succ more)] at h2
        exact h2
      have hdm : ∀ u, u ∈ usersIds (s succ) ↔
          (u ∈ usersIds (s succ) ∧ u ∉ P_old) :=
        fun u => ⟨fun hu => ⟨hu, habs u hu⟩, fun h => h.1⟩
      by_cases herase : (usersIds (s succ)).erase node = []
      · obtain ⟨hinv1, hmu1⟩ := ps_step_empty hwf hrank hsupp hUnd husersOut
          hnotold hprocU hReachNode hcompnode hedge hndc.1 hinv
          (usersIds_nodup _) hdm (by rw [hlk]; simp) herase
        obtain ⟨ts', hok, hproc, hres, hready, hinvf, hmu⟩ :=
          ih _ hndc.2 (fun x hx => hedges x (List.mem_cons_of_mem _ hx)) hinv1
        refine ⟨ts', ?_, hproc, hres, ?_, hinvf, by rw [hmu, hmu1]⟩
        · show processSuccs s node (succ :: more) ts = .ok ts'
          simp only [processSuccs, hlk]
          rw [if_pos hnodeusers, if_pos herase]
          exact hok
        · intro x hx
          exact hready x (mem_addReady.mpr (Or.inr hx))
      · obtain ⟨hinv1, hmu1⟩ := ps_step_nonempty hwf husersOut hnotold hedge
          hndc.1 hinv (usersIds_nodup _) hdm (by rw [hlk]; simp) herase
        obtain ⟨ts', hok, hproc, hres, hready, hinvf, hmu⟩ :=
          ih _ hndc.2 (fun x hx => hedges x (List.mem_cons_of_mem _ hx)) hinv1
        refine ⟨ts', ?_, hproc, hres, hready, hinvf, by rw [hmu, hmu1]⟩
        show processSuccs s node (succ :: more) ts = .ok ts'
        simp only [processSuccs, hlk]
        rw [if_pos hnodeusers, if_neg herase]
        exact hok
    · rcases v with _ | l
      · have h2 := (hinv.predNone succ hlk).1 node hnodeusers
        rw [if_pos (List.mem_cons_self _ _)] at h2
        exact absurd h2 hnotold
      · obtain ⟨hlne, hldn, hlmem⟩ := hinv.predSome succ l hlk
        have hlmem2 : ∀ u, u ∈ l ↔ (u ∈ usersIds (s succ) ∧ u ∉ P_old) := by
          intro u
          rw [hlmem u, if_pos (List.mem_cons_self _ _)]
        have hnode_l : node ∈ l := (hlmem2 node).mpr ⟨hnodeusers, hnotold⟩
        by_cases herase : l.erase node = []
        · obtain ⟨hinv1, hmu1⟩ := ps_step_empty hwf hrank hsupp hUnd husersOut
            hnotold hprocU hReachNode hcompnode hedge hndc.1 hinv hldn hlmem2
            (by rw [hlk]; simp) herase
          obtain ⟨ts', hok, hproc, hres, hready, hinvf, hmu⟩ :=
            ih _ hndc.2 (fun x hx => hedges x (List.mem_cons_of_mem _ hx)) hinv1
          refine ⟨ts', ?_, hproc, hres, ?_, hinvf, by rw [hmu, hmu1]⟩
          · show processSuccs s node (succ :: more) ts = .ok ts'
            simp only [processSuccs, hlk]
            rw [if_pos hnode_l, if_pos herase]
            exact hok
          · intro x hx
            exact hready x (mem_addReady.mpr (Or.inr hx))
        · obtain ⟨hinv1, hmu1⟩ := ps_step_nonempty hwf husersOut hnotold hedge
            hndc.1 hinv hldn hlmem2 (by rw [hlk]; simp) herase
          obtain ⟨ts', hok, hproc, hres, hready, hinvf, hmu⟩ :=
            ih _ hndc.2 (fun x hx => hedges x (List.mem_cons_of_mem _ hx)) hinv1
          refine ⟨ts', ?_, hproc, hres, hready, hinvf, by rw [hmu, hmu1]⟩
          show processSuccs s node (succ :: more) ts = .ok ts'
          simp only [processSuccs, hlk]
          rw [if_pos hnode_l, if_neg herase]
          exact hok

/-- The invariant of the outer `while ready:` loop. -/
structure TInv (s : GState) (out : NodeId) (ts : TopoState) : Prop where
  procRes : ∀ n, n ∈ ts.processed ↔ n ∈ ts.results
  resNodup : ts.results.Nodup
  resReach : ∀ n ∈ ts.results, CompReach s out n
  resOrder : ts.results.Pairwise (fun x y => ¬ IsEdge s y x)
  procUsers : ∀ x ∈ ts.processed, ∀ u ∈ usersIds (s x), u ∈ ts.processed
  readyNotProc : ∀ x ∈ ts.ready, x ∉ ts.processed
  readyReach : ∀ x ∈ ts.ready, Reach s out x
  readyUsers : ∀ x ∈ ts.ready, ∀ u ∈ usersIds (s x), u ∈ ts.processed
  readyNodup : ts.ready.Nodup
  readyPred : ∀ x ∈ ts.ready, x = out ∨ ts.pred.lookup x = some none
  predKeys : (ts.pred.map Prod.fst).Nodup
  predSome : ∀ k l, ts.pred.lookup k = some (some l) →
    l ≠ [] ∧ l.Nodup ∧ ∀ u, (u ∈ l ↔
      (u ∈ usersIds (s k) ∧ u ∉ ts.processed))
  predNone : ∀ k, ts.pred.lookup k = some none →
    (∀ u ∈ usersIds (s k), u ∈ ts.processed) ∧
    (k ∈ ts.ready ∨ k ∈ ts.processed ∨ isComputation (s k) = false)
  predAbsent : ∀ k, ts.pred.lookup k = none →
    ∀ u ∈ usersIds (s k), u ∉ ts.processed
  outIn : out ∈ ts.ready ∨ out ∈ ts.processed

/-- Full specification of the outer loop under acyclicity and
users-closedness: it terminates successfully with an empty ready set and
the invariant intact. -/
theorem topoLoop_spec
    {s : GState} {out : NodeId} {U : List NodeId} {rank : NodeId → Nat}
    (hwf : WF s)
    (hrank : ∀ a b, IsEdge s a b → rank b < rank a)
    (hsupp : ∀ a, a ∉ U → s a = NodeData.empty) (hUnd : U.Nodup)
    (hcompout : isComputation (s out) = true)
    (husersOut : usersIds (s out) = []) :
    ∀ (fuel : Nat) (ts : TopoState), TInv s out ts → muSum U ts < fuel →
    ∃ ts', topoLoop s fuel ts = .ok ts'.results.reverse ∧ TInv s out ts' ∧
      ts'.ready = [] ∧ (∀ n ∈ ts.results, n ∈ ts'.results) := by
  intro fuel
  induction fuel with
  | zero =>
    intro ts hinv hmu
    omega
  | succ fuel ih =>
    intro ts hinv hmu
    rcases hready : ts.ready with _ | ⟨node, rest⟩
    · refine ⟨ts, ?_, hinv, hready, fun n hn => hn⟩
      show topoLoop s (fuel + 1) ts = .ok ts.results.reverse
      simp only [topoLoop, hready]
    · have hmu1 : muSum U ({ ts with ready := rest }) + 1 = muSum U ts := by
        unfold muSum
        rw [hready]
        simp [List.length_cons]
        omega
      by_cases hc : isComputation (s node) = true
      · -- computation node: process it
        have hnp : node ∉ ts.processed :=
          hinv.readyNotProc node (by rw [hready]; exact List.mem_cons_self _ _)
        have hnreach : Reach s out node :=
          hinv.readyReach node (by rw [hready]; exact List.mem_cons_self _ _)
        have hnodeNotRest : node ∉ rest := by
          have := hinv.readyNodup
          rw [hready, List.nodup_cons] at this
          exact this.1
        -- the state handed to the successor loop
        have hpsinv : PSInv s out node ts.processed (successors (s node))
            ({ ts with ready := rest,
                       processed := node :: ts.processed,
                       results := ts.results ++ [node] }) := by
          refine ⟨rfl, ?_, ?_, ?_, ?_, ?_, ?_, ?_, ?_, ?_⟩
          · intro x hx
            show x ∉ node :: ts.processed
            intro hmem
            rcases List.mem_cons.mp hmem with rfl | h2
            · exact hnodeNotRest hx
            · exact hinv.readyNotProc x
                (by rw [hready]; exact List.mem_cons_of_mem _ hx) h2
          · intro x hx
            exact hinv.readyReach x
              (by rw [hready]; exact List.mem_cons_of_mem _ hx)
          · intro x hx u hu
            show u ∈ node :: ts.processed
            exact List.mem_cons_of_mem _ (hinv.readyUsers x
              (by rw [hready]; exact List.mem_cons_of_mem _ hx) u hu)
          · have := hinv.readyNodup
            rw [hready, List.nodup_cons] at this
            exact this.2
          · intro x hx
            exact hinv.readyPred x
              (by rw [hready]; exact List.mem_cons_of_mem _ hx)
          · exact hinv.predKeys
          · intro k l hlk
            obtain ⟨h1, h2, h3⟩ := hinv.predSome k l hlk
            refine ⟨h1, h2, ?_⟩
            intro u
            rw [h3 u]
            by_cases hks : k ∈ successors (s node)
            · rw [if_pos hks]
            · rw [if_neg hks]
              constructor
              · rintro ⟨hu, hnpu⟩
                refine ⟨hu, ?_⟩
                show u ∉ node :: ts.processed
                intro hmem
                rcases List.mem_cons.mp hmem with rfl | h4
                · exact hks (mem_successors_iff_isEdge.mpr
                    ((mem_usersIds_iff_isEdge hwf).mp hu))
                · exact hnpu h4
              · rintro ⟨hu, hnpu⟩
                exact ⟨hu, fun h4 => hnpu (List.mem_cons_of_mem _ h4)⟩
          · intro k hlk
            obtain ⟨h1, h2⟩ := hinv.predNone k hlk
            constructor
            · intro u hu
              by_cases hks : k ∈ successors (s node)
              · rw [if_pos hks]
                exact h1 u hu
              · rw [if_neg hks]
                exact List.mem_cons_of_mem _ (h1 u hu)
            · rcases h2 with h | h | h
              · rw [hready] at h
                rcases List.mem_cons.mp h with rfl | h4
                · exact Or.inr (Or.inl (List.mem_cons_self _ _))
                · exact Or.inl h4
              · exact Or.inr (Or.inl (List.mem_cons_of_mem _ h))
              · exact Or.inr (Or.inr h)
          · intro k hlk u hu
            by_cases hks : k ∈ successors (s node)
            · rw [if_pos hks]
              exact hinv.predAbsent k hlk u hu
            · rw [if_neg hks]
              show u ∉ node :: ts.processed
              intro hmem
              rcases List.mem_cons.mp hmem with rfl | h4
              · exact hks (mem_successors_iff_isEdge.mpr
                  ((mem_usersIds_iff_isEdge hwf).mp hu))
              · exact hinv.predAbsent k hlk u hu h4
        obtain ⟨ts2, hok, hproc2, hres2, hready2, hpsf, hmu2⟩ :=
          processSuccs_spec hwf hrank hsupp hUnd husersOut hnp
            hinv.procUsers hnreach hc (successors (s node))
            ({ ts with ready := rest,
                       processed := node :: ts.processed,
                       results := ts.results ++ [node] })
            (List.nodup_dedup _)
            (fun x hx => mem_successors_iff_isEdge.mp hx) hpsinv
        -- rebuild the outer invariant for ts2
        have hproc2a : ts2.processed = node :: ts.processed := hproc2
        have hres2a : ts2.results = ts.results ++ [node] := hres2
        have hnodeNotRes : node ∉ ts.results :=
          fun h => hnp ((hinv.procRes node).mpr h)
        have hresOrder2 : ∀ x ∈ ts.results, ¬ IsEdge s node x := by
          intro x hx hedge
          have hxp : x ∈ ts.processed := (hinv.procRes x).mpr hx
          have : node ∈ ts.processed := hinv.procUsers x hxp node
            ((mem_usersIds_iff_isEdge hwf).mpr hedge)
          exact hnp this
        have htinv2 : TInv s out ts2 := by
          refine ⟨?_, ?_, ?_, ?_, ?_, hpsf.readyNotProc, hpsf.readyReach,
            hpsf.readyUsers, hpsf.readyNodup, hpsf.readyPred, hpsf.predKeys,
            ?_, ?_, ?_, ?_⟩
          · intro n
            rw [hproc2a, hres2a, List.mem_cons, List.mem_append,
              List.mem_singleton]
            rw [hinv.procRes n]
            tauto
          · rw [hres2a, List.nodup_append]
            exact ⟨hinv.resNodup, List.nodup_singleton _, by
              intro a ha hb
              rw [List.mem_singleton] at hb
              subst hb
              exact hnodeNotRes ha⟩
          · intro n hn
            rw [hres2a, List.mem_append, List.mem_singleton] at hn
            rcases hn with hn | rfl
            · exact hinv.resReach n hn
            · exact ⟨hnreach, hc⟩
          · rw [hres2a, List.pairwise_append]
            refine ⟨hinv.resOrder, List.pairwise_singleton _ _, ?_⟩
            intro a ha b hb
            rw [List.mem_singleton] at hb
            subst hb
            exact hresOrder2 a ha
          · intro x hx u hu
            rw [hproc2a] at hx ⊢
            rcases List.mem_cons.mp hx with rfl | h4
            · exact List.mem_cons_of_mem _
                (hinv.readyUsers x (by rw [hready]; exact List.mem_cons_self _ _) u hu)
            · exact List.mem_cons_of_mem _ (hinv.procUsers x h4 u hu)
          · intro k l hlk
            obtain ⟨h1, h2, h3⟩ := hpsf.predSome k l hlk
            refine ⟨h1, h2, ?_⟩
            intro u
            rw [h3 u, if_neg (List.not_mem_nil k)]
          · intro k hlk
            obtain ⟨h1, h2⟩ := hpsf.predNone k hlk
            refine ⟨?_, h2⟩
            intro u hu
            have := h1 u hu
            rw [if_neg (List.not_mem_nil k)] at this
            exact this
          · intro k hlk u hu
            have := hpsf.predAbsent k hlk u hu
            rw [if_neg (List.not_mem_nil k)] at this
            exact this
          · rcases hinv.outIn with h | h
            · rw [hready] at h
              rcases List.mem_cons.mp h with rfl | h4
              · refine Or.inr ?_
                rw [hproc2a]
                exact List.mem_cons_self _ _
              · exact Or.inl (hready2 out h4)
            · refine Or.inr ?_
              rw [hproc2a]
              exact List.mem_cons_of_mem _ h
        have hmuts2 : muSum U ts2 + 1 = muSum U ts := by
          rw [hmu2]
          have heq : muSum U ({ ts with ready := rest, processed := node :: ts.processed, results := ts.results ++ [node] }) = muSum U ({ ts with ready := rest }) := rfl
          rw [heq, hmu1]
        obtain ⟨ts', hok2, hinvf, hreadyf, hresf⟩ := ih ts2 htinv2 (by omega)
        refine ⟨ts', ?_, hinvf, hreadyf, ?_⟩
        · show topoLoop s (fuel + 1) ts = .ok ts'.results.reverse
          simp only [topoLoop, hready]
          rw [if_pos hc, if_neg hnp, hok]
          exact hok2
        · intro n hn
          refine hresf n ?_
          rw [hres2a, List.mem_append]
          exact Or.inl hn
      · -- non-computation node: skipped
        have htinv1 : TInv s out ({ ts with ready := rest }) := by
          refine ⟨hinv.procRes, hinv.resNodup, hinv.resReach, hinv.resOrder,
            hinv.procUsers, ?_, ?_, ?_, ?_, ?_, hinv.predKeys, hinv.predSome,
            ?_, hinv.predAbsent, ?_⟩
          · intro x hx
            exact hinv.readyNotProc x
              (by rw [hready]; exact List.mem_cons_of_mem _ hx)
          · intro x hx
            exact hinv.readyReach x
              (by rw [hready]; exact List.mem_cons_of_mem _ hx)
          · intro x hx
            exact hinv.readyUsers x
              (by rw [hready]; exact List.mem_cons_of_mem _ hx)
          · have := hinv.readyNodup
            rw [hready, List.nodup_cons] at this
            exact this.2
          · intro x hx
            exact hinv.readyPred x
              (by rw [hready]; exact List.mem_cons_of_mem _ hx)
          · intro k hlk
            obtain ⟨h1, h2⟩ := hinv.predNone k hlk
            refine ⟨h1, ?_⟩
            rcases h2 with h | h | h
            · rw [hready] at h
              rcases List.mem_cons.mp h with rfl | h4
              · exact Or.inr (Or.inr (by simpa using hc))
              · exact Or.inl h4
            · exact Or.inr (Or.inl h)
            · exact Or.inr (Or.inr h)
          · rcases hinv.outIn with h | h
            · rw [hready] at h
              rcases List.mem_cons.mp h with rfl | h4
              · exact absurd hcompout hc
              · exact Or.inl h4
            · exact Or.inr h
        obtain ⟨ts', hok2, hinvf, hreadyf, hresf⟩ :=
          ih ({ ts with ready := rest }) htinv1 (by omega)
        refine ⟨ts', ?_, hinvf, hreadyf, hresf⟩
        show topoLoop s (fuel + 1) ts = .ok ts'.results.reverse
        simp only [topoLoop, hready]
        rw [if_neg hc]
        exact hok2

theorem reach_ne_root_user {s : GState} {out m : NodeId}
    (h : Reach s out m) (hne : m ≠ out) :
    ∃ a, IsEdge s a m ∧ isComputation (s a) = true ∧ Reach s out a := by
  cases h with
  | refl => exact absurd rfl hne
  | step hra hca hea => exact ⟨_, hea, hca, hra⟩

/-- If the output is not a computation node, the only node reachable
through computation nodes is the output itself. -/
theorem reach_eq_of_not_comp {s : GState} {out n : NodeId}
    (hout : ¬ isComputation (s out) = true) (h : Reach s out n) : n = out := by
  induction h with
  | refl => rfl
  | step hra hca hea ih =>
    subst ih
    exact absurd hca hout

/-- At a terminal loop state (empty ready set), every reachable computation
node has been processed: by induction on the rank gap, all users of an
unprocessed reachable node would be processed, which forces its `pred`
entry to the `None` marker and the node into the (empty) ready set. -/
theorem terminal_complete
    {s : GState} {out : NodeId} {rank : NodeId → Nat}
    (hwf : WF s)
    (hrank : ∀ a b, IsEdge s a b → rank b < rank a)
    (hclosed : ∀ b, CompReach s out b → ∀ p ∈ (s b).users, CompReach s out p.2)
    {ts : TopoState} (hinv : TInv s out ts) (hready : ts.ready = []) :
    ∀ m, CompReach s out m → m ∈ ts.processed := by
  have houtproc : out ∈ ts.processed := by
    rcases hinv.outIn with h | h
    · rw [hready] at h
      cases h
    · exact h
  have main : ∀ k m, CompReach s out m → rank out - rank m ≤ k →
      m ∈ ts.processed := by
    intro k
    induction k with
    | zero =>
      intro m hm hk
      by_cases hmo : m = out
      · subst hmo
        exact houtproc
      · exfalso
        obtain ⟨a, hea, hca, hra⟩ := reach_ne_root_user hm.1 hmo
        have ha : a ∈ usersIds (s m) := (mem_usersIds_iff_isEdge hwf).mpr hea
        have hcra : CompReach s out a := by
          obtain ⟨r, hr⟩ := mem_usersIds.mp ha
          exact hclosed m hm (r, a) hr
        have h1 : rank m < rank a := hrank a m hea
        have h2 : rank a ≤ rank out := reach_rank_le hrank hcra.1
        omega
    | succ k ihk =>
      intro m hm hk
      by_cases hmo : m = out
      · subst hmo
        exact houtproc
      · have husers_proc : ∀ u ∈ usersIds (s m), u ∈ ts.processed := by
          intro u hu
          have hcru : CompReach s out u := by
            obtain ⟨r, hr⟩ := mem_usersIds.mp hu
            exact hclosed m hm (r, u) hr
          have hedgeum : IsEdge s u m := (mem_usersIds_iff_isEdge hwf).mp hu
          have h1 : rank m < rank u := hrank u m hedgeum
          have h2 : rank u ≤ rank out := reach_rank_le hrank hcru.1
          exact ihk u hcru (by omega)
        obtain ⟨a, hea, hca, hra⟩ := reach_ne_root_user hm.1 hmo
        have ha : a ∈ usersIds (s m) := (mem_usersIds_iff_isEdge hwf).mpr hea
        rcases hlk : ts.pred.lookup m with _ | v
        · exact absurd (husers_proc a ha) (hinv.predAbsent m hlk a ha)
        · rcases v with _ | l
          · rcases (hinv.predNone m hlk).2 with h | h | h
            · rw [hready] at h
              cases h
            · exact h
            · exact absurd hm.2 (by rw [h]; simp)
          · obtain ⟨h1, h2, h3⟩ := hinv.predSome m l hlk
            obtain ⟨u0, hu0⟩ := List.exists_mem_of_ne_nil l h1
            obtain ⟨hu0u, hu0np⟩ := (h3 u0).mp hu0
            exact absurd (husers_proc u0 hu0u) hu0np
  intro m hm
  exact main (rank out - rank m) m hm (Nat.le_refl _)

/-- The loop invariant holds at the initial toposort state. -/
theorem tinv_init {s : GState} {out : NodeId}
    (husersOut : usersIds (s out) = []) :
    TInv s out ⟨[], [out], [], []⟩ := by
  refine ⟨?_, ?_, ?_, ?_, ?_, ?_, ?_, ?_, ?_, ?_, ?_, ?_, ?_, ?_, ?_⟩
  · intro n
    constructor
    · intro h
      cases h
    · intro h
      cases h
  · exact List.nodup_nil
  · intro n hn
    cases hn
  · exact List.Pairwise.nil
  · intro x hx
    cases hx
  · intro x hx u
    cases u
  · intro x hx
    rcases List.mem_singleton.mp hx with rfl
    exact Reach.refl
  · intro x hx u hu
    rcases List.mem_singleton.mp hx with rfl
    rw [husersOut] at hu
    cases hu
  · exact List.nodup_singleton _
  · intro x hx
    rcases List.mem_singleton.mp hx with rfl
    exact Or.inl rfl
  · exact List.nodup_nil
  · intro k l hlk
    cases hlk
  · intro k hlk
    cases hlk
  · intro k hlk u hu
    intro h
    cases h
  · exact Or.inl (List.mem_singleton.mpr rfl)

/-! ### C3: toposort returns the reachable computation nodes in order -/

/-- Executable acyclicity check: every forward edge out of a support node
strictly decreases the rank. -/
def rankOkB (U : List NodeId) (s : GState) (rank : NodeId → Nat) : Bool :=
  U.all (fun a => (successors (s a)).all (fun b => decide (rank b < rank a)))

/-- A heap that is empty outside `U` and passes the executable rank check
admits the rank function as an acyclicity witness. -/
theorem hrank_of_rankOkB {U : List NodeId} {s : GState} {rank : NodeId → Nat}
    (hU : ∀ a, a ∉ U → s a = NodeData.empty)
    (hB : rankOkB U s rank = true) :
    ∀ a b, IsEdge s a b → rank b < rank a := by
  intro a b h
  by_cases ha : a ∈ U
  · have hb : b ∈ successors (s a) := mem_successors.mpr h
    have h2 := List.all_eq_true.mp (List.all_eq_true.mp hB a ha) b hb
    exact of_decide_eq_true h2
  · have he : (s a).fn = some b ∨ some b ∈ (s a).inputs := h
    rw [hU a ha] at he
    rcases he with h2 | h2
    · cases h2
    · cases h2

/-- An acyclic well-formed graph on which toposort drops a reachable
computation node: node `2` feeds the output `0`, but it also has the user
`3`, which is not reachable from `0`, so the waiting count of `2` never
reaches zero. -/
def cs3 : GState := fun n =>
  match n with
  | 0 => ⟨some 1, [some 2], []⟩
  | 1 => ⟨none, [], [(Role.FN, 0), (Role.FN, 2), (Role.FN, 3)]⟩
  | 2 => ⟨some 1, [], [(Role.IN 0, 0), (Role.IN 0, 3)]⟩
  | 3 => ⟨some 1, [some 2], []⟩
  | _ => NodeData.empty

theorem cs3_support : ∀ a, a ∉ [0, 1, 2, 3] → cs3 a = NodeData.empty := by
  intro a ha
  rcases a with _ | _ | _ | _ | n
  · exact absurd (by decide) ha
  · exact absurd (by decide) ha
  · exact absurd (by decide) ha
  · exact absurd (by decide) ha
  · rfl

theorem cs3_wf : WF cs3 := wf_of_WFonB cs3_support (by decide)

def cs3rank : NodeId → Nat := fun n => if n = 1 then 0 else if n = 2 then 1 else 2

theorem cs3_hrank : ∀ a b, IsEdge cs3 a b → cs3rank b < cs3rank a :=
  hrank_of_rankOkB cs3_support (by decide)

/-- Claim C3 (counterexample): `cs3` is a well-formed graph, acyclic as
witnessed by the rank function `cs3rank`, and node `2` is a computation node
reachable from the output `0`; yet `toposort` returns `[0]`, omitting `2` —
it counts the unreachable user `3` in the waiting count of `2`, which
therefore never reaches zero. This refutes the claim as stated for every
acyclic graph. -/
theorem C3_toposort_counterexample :
    WF cs3 ∧ (∀ a b, IsEdge cs3 a b → cs3rank b < cs3rank a) ∧
    toposort cs3 0 10 = .ok [0] ∧
    CompReach cs3 0 2 ∧ (2 : NodeId) ∉ [(0 : NodeId)] := by
  have h2 : Reach cs3 0 2 := Reach.step Reach.refl rfl (Or.inr (by decide))
  exact ⟨cs3_wf, cs3_hrank, rfl, ⟨h2, rfl⟩, by decide⟩

/-- Claim C3 (amended): assume the graph is well formed, finitely supported,
acyclic (a rank function decreases along every forward edge), and closed in
the sense that every user of a computation node reachable from the output is
itself a reachable computation node. Then with sufficient fuel `toposort`
succeeds and returns exactly the computation nodes reachable from the
output, without duplicates, in an order where every node precedes all nodes
that consume it (free inputs and constants never appear). -/
theorem C3_toposort_amended
    (s : GState) (out : NodeId) (U : List NodeId) (rank : NodeId → Nat)
    (fuel : Nat)
    (hwf : WF s)
    (hsupp : ∀ a, a ∉ U → s a = NodeData.empty) (hUnd : U.Nodup)
    (hrank : ∀ a b, IsEdge s a b → rank b < rank a)
    (hclosed : ∀ b, CompReach s out b → ∀ p ∈ (s b).users, CompReach s out p.2)
    (hfuel : U.length + 2 ≤ fuel) :
    ∃ r, toposort s out fuel = .ok r ∧
      (∀ n, n ∈ r ↔ CompReach s out n) ∧
      r.Nodup ∧
      ∀ i j (hi : i < r.length) (hj : j < r.length),
        IsEdge s (r.get ⟨i, hi⟩) (r.get ⟨j, hj⟩) → j < i := by
  by_cases hcomp : isComputation (s out) = true
  · have husersOut : usersIds (s out) = [] :=
      usersIds_empty_of_no_users (users_out_empty hwf hrank hclosed hcomp)
    have hinit : TInv s out ⟨[], [out], [], []⟩ := tinv_init husersOut
    have hmu : muSum U (⟨[], [out], [], []⟩ : TopoState) < fuel := by
      have h2 : (U.filter (fun x =>
          decide ((⟨[], [out], [], []⟩ : TopoState).pred.lookup x ≠ some none))).length
          ≤ U.length := List.length_filter_le _ _
      have h1 : muSum U (⟨[], [out], [], []⟩ : TopoState) = (U.filter (fun x =>
          decide ((⟨[], [out], [], []⟩ : TopoState).pred.lookup x ≠ some none))).length
          + 1 := rfl
      omega
    obtain ⟨ts2, hok, hinv2, hready2, -⟩ :=
      topoLoop_spec hwf hrank hsupp hUnd hcomp husersOut fuel
        ⟨[], [out], [], []⟩ hinit hmu
    refine ⟨ts2.results.reverse, ?_, ?_, ?_, ?_⟩
    · unfold toposort
      rw [if_pos hcomp]
      exact hok
    · intro n
      rw [List.mem_reverse]
      constructor
      · intro hn
        exact hinv2.resReach n hn
      · intro hn
        exact (hinv2.procRes n).mp
          (terminal_complete hwf hrank hclosed hinv2 hready2 n hn)
    · exact List.nodup_reverse.mpr hinv2.resNodup
    · intro i j hi hj hedge
      have hp : (ts2.results.reverse).Pairwise (fun x y => ¬ IsEdge s x y) :=
        List.pairwise_reverse.mpr hinv2.resOrder
      rcases Nat.lt_trichotomy j i with hlt | heq | hgt
      · exact hlt
      · exfalso
        subst heq
        exact no_self_edge hrank _ hedge
      · exfalso
        exact List.pairwise_iff_get.mp hp ⟨i, hi⟩ ⟨j, hj⟩ hgt hedge
  · refine ⟨[], ?_, ?_, List.nodup_nil, ?_⟩
    · unfold toposort
      rw [if_neg hcomp]
    · intro n
      constructor
      · intro hn
        cases hn
      · intro hn
        have heq := reach_eq_of_not_comp hcomp hn.1
        rw [heq] at hn
        exact absurd hn.2 hcomp
    · intro i j hi hj hedge
      exact absurd hi (Nat.not_lt_zero i)

/-- A two-node graph for exercising the amended toposort theorem: the output
`0` is a computation applying the constant `1`. -/
def cw3 : GState := fun n =>
  match n with
  | 0 => ⟨some 1, [], []⟩
  | 1 => ⟨none, [], [(Role.FN, 0)]⟩
  | _ => NodeData.empty

theorem cw3_support : ∀ a, a ∉ [0, 1] → cw3 a = NodeData.empty := by
  intro a ha
  rcases a with _ | _ | n
  · exact absurd (by decide) ha
  · exact absurd (by decide) ha
  · rfl

theorem cw3_wf : WF cw3 := wf_of_WFonB cw3_support (by decide)

def cw3rank : NodeId → Nat := fun n => if n = 1 then 0 else 1

theorem cw3_hrank : ∀ a b, IsEdge cw3 a b → cw3rank b < cw3rank a :=
  hrank_of_rankOkB cw3_support (by decide)

theorem cw3_reach {b : NodeId} (h : Reach cw3 0 b) : b = 0 ∨ b = 1 := by
  induction h with
  | refl => exact Or.inl rfl
  | step hra hca hea ih =>
    rcases ih with rfl | rfl
    · rcases hea with h | h
      · exact Or.inr (Option.some.inj h.symm)
      · cases h
    · exact absurd hca (by decide)

theorem cw3_closed :
    ∀ b, CompReach cw3 0 b → ∀ p ∈ (cw3 b).users, CompReach cw3 0 p.2 := by
  intro b hb p hp
  rcases cw3_reach hb.1 with rfl | rfl
  · cases hp
  · exact absurd hb.2 (by decide)

theorem C3_toposort_amended_witness :
    ∃ r, toposort cw3 0 4 = .ok r ∧
      (∀ n, n ∈ r ↔ CompReach cw3 0 n) ∧
      r.Nodup ∧
      ∀ i j (hi : i < r.length) (hj : j < r.length),
        IsEdge cw3 (r.get ⟨i, hi⟩) (r.get ⟨j, hj⟩) → j < i :=
  C3_toposort_amended cw3 0 [0, 1] cw3rank 4 cw3_wf cw3_support (by decide)
    cw3_hrank cw3_closed (by decide)

/-! ## A-normal form conversion (`src/myia/compile.py`) -/

/-- Modelled from the spec: symbols of the `myia.ast` expression language
(the `myia.ast` and `myia.front` modules are outside this repository).
A symbol is either a user-written name or a symbol produced by `GenSym`;
generated symbols are guaranteed fresh, which is modelled by a monotone
counter threaded through the transformation. -/
inductive MSym where
  | user (s : String)
  | gen (base : String) (n : Nat)
deriving DecidableEq

/-- Modelled from the spec: the `myia.ast` node classes consumed by
`compile.py` (`Symbol`, `Value`, `Apply`, `Lambda`, `If`, `Tuple`,
`Closure`, `Let`, `Begin`). Value payloads and lambda metadata do not
influence the transformation and are reduced to the fields it reads. -/
inductive MExpr where
  | Symbol (s : MSym)
  | Value (v : Int)
  | Apply (fn : MExpr) (args : List MExpr)
  | Lambda (params : List MSym) (body : MExpr)
  | If (cond : MExpr) (thn : MExpr) (els : MExpr)
  | Tuple (values : List MExpr)
  | Closure (fn : MExpr) (args : List MExpr)
  | Let (bindings : List (MSym × MExpr)) (body : MExpr)
  | Begin (stmts : List MExpr)

/-- `isinstance(stmt, (Symbol, Value))`: the bare atoms. -/
def isAtom : MExpr → Bool
  | .Symbol _ => true
  | .Value _ => true
  | _ => false

/-- The stash argument of `ANormalTransformer.transform`: `none` is the
Python `stash=False` default; `some nm` is a stash pair `(name, bindings)`
whose mutable bindings list is modelled by returning the appended
bindings. -/
abbrev Stash := Option (Option String)

/-- `ANormalTransformer.stash`: with a stash present, generate a fresh
symbol named after the requested name (Python `name or default_name`
falls back when the name is `None` or empty), record `(sym, result)`, and
return the symbol; with no stash return the result unchanged. The second
component is the list of bindings appended to the stash. -/
def doStash (st : Stash) (result : MExpr) (defaultName : String) (c : Nat) :
    MExpr × List (MSym × MExpr) × Nat :=
  match st with
  | none => (result, [], c)
  | some nm =>
    (.Symbol (.gen (match nm with
      | none => defaultName
      | some s => if s = "" then defaultName else s) c),
     [(MSym.gen (match nm with
      | none => defaultName
      | some s => if s = "" then defaultName else s) c, result)],
     c + 1)

/-- Modelled from the spec: the label of a symbol, as reached by the
`while isinstance(base_label, Symbol)` unwrapping in
`transform_arguments` — a user symbol is labelled by its name and a
generated symbol by the name it was generated from. -/
def symLabel : MSym → String
  | .user s => s
  | .gen b _ => b

/-- The `base_label` computation of `transform_arguments`: unwrap a
symbol to its label; on any other node Python fails with a `TypeError`
at `"/" in base_label`. -/
def labelOf : MExpr → Option String
  | .Symbol s => some (symLabel s)
  | _ => none

/-- Base-name derivation of `transform_arguments`: a label containing
`"/"` gives the empty base name, a label starting with `"#"` is kept
whole, and otherwise the label is cut at its first character that is not
a letter or an underscore (`re.split("[^A-Za-z_]", base_label)[0]`). -/
def baseNameOf (label : String) : String :=
  if label.data.contains (Char.ofNat 47) then ""
  else if (match label.data with
           | c :: _ => decide (c = Char.ofNat 35)
           | [] => false) then label
  else String.mk (label.data.takeWhile (fun ch => ch.isAlpha || ch = Char.ofNat 95))

/-- `Apply(*new_args)` as rebuilt by `transform_Apply`; the empty arm is
unreachable at call sites (the argument list always starts with the
function). -/
def applyCtor : List MExpr → MExpr
  | f :: args => .Apply f args
  | [] => .Value 0

/-- `If(*new_args)` as rebuilt by `transform_If`; only the three-element
arm is reachable. -/
def ifCtor : List MExpr → MExpr
  | [c, t, f] => .If c t f
  | _ => .Value 0

/-- `_Tuple(*args)` as rebuilt by `transform_Tuple`. -/
def tupleCtor (l : List MExpr) : MExpr := .Tuple l

/-- `rebuild(f, *args)` as rebuilt by `transform_Closure`; the empty arm
is unreachable. -/
def closureCtor : List MExpr → MExpr
  | f :: args => .Closure f args
  | [] => .Value 0

/-- The statement filtering of `transform_Begin`: every leading statement
that is a bare atom is dropped, the last statement is always kept. -/
def beginKept (stmts : List MExpr) : List MExpr :=
  stmts.dropLast.filter (fun e => !isAtom e) ++
    (match stmts.getLast? with
     | none => []
     | some l => [l])

mutual
/-- `ANormalTransformer.transform` (the dispatch plus the
`transform_Symbol`, `transform_Value` and `transform_Lambda` cases), on
explicit fuel: the result is the transformed node, the bindings appended
to the stash of the caller, and the generator counter. `none` models a
Python exception (or exhausted fuel). -/
def transform : Nat → MExpr → Stash → Nat →
    Option (MExpr × List (MSym × MExpr) × Nat)
  | 0, _, _, _ => none
  | fuel + 1, e, st, c =>
    match e with
    | .Symbol s => some (.Symbol s, [], c)
    | .Value v => some (.Value v, [], c)
    | .Apply f args =>
      transformArguments fuel (f :: args) applyCtor st none none c
    | .Lambda ps body =>
      match transform fuel body none c with
      | none => none
      | some (body2, _, c1) => some (doStash st (.Lambda ps body2) "lambda" c1)
    | .If cnd thn els =>
      transformArguments fuel [cnd, thn, els] ifCtor st (some "if")
        (some ["cond", "then", "else"]) c
    | .Tuple vs => transformArguments fuel vs tupleCtor st (some "tup") none c
    | .Closure f args =>
      transformArguments fuel (f :: args) closureCtor st (some "closure") none c
    | .Let bs body => transformLet fuel bs body st c
    | .Begin ss => transformBegin fuel ss st c
  termination_by structural fuel _ _ _ => fuel

/-- `ANormalTransformer.transform_arguments`: with no base name given,
the first argument is the function — it is transformed against the shared
bindings list and its label determines the base name. -/
def transformArguments : Nat → List MExpr → (List MExpr → MExpr) → Stash →
    Option String → Option (List String) → Nat →
    Option (MExpr × List (MSym × MExpr) × Nat)
  | 0, _, _, _, _, _, _ => none
  | fuel + 1, args, ctor, st, baseNameOpt, tagsOpt, c =>
    match baseNameOpt with
    | some bn => transformArgumentsRest fuel args ctor st bn tagsOpt c [] []
    | none =>
      match args with
      | [] => none
      | fnArg :: rest =>
        match transform fuel fnArg (some none) c with
        | none => none
        | some (fnNew, bs0, c0) =>
          match labelOf fnNew with
          | none => none
          | some lab =>
            transformArgumentsRest fuel rest ctor st (baseNameOf lab) tagsOpt
              c0 [fnNew] bs0
  termination_by structural fuel _ _ _ _ _ _ => fuel

/-- The tail of `transform_arguments` once the base name is fixed: the
default tags are `in1, in2, …`, the argument loop runs, the constructor
is applied to the new arguments, and the result is wrapped in a `Let` of
the collected bindings and stashed. `argsPre` and `bsPre` carry the
already transformed function and the bindings it appended. -/
def transformArgumentsRest : Nat → List MExpr → (List MExpr → MExpr) →
    Stash → String → Option (List String) → Nat → List MExpr →
    List (MSym × MExpr) → Option (MExpr × List (MSym × MExpr) × Nat)
  | 0, _, _, _, _, _, _, _, _ => none
  | fuel + 1, args, ctor, st, baseName, tagsOpt, c, argsPre, bsPre =>
    match transformArgs fuel args
        (match tagsOpt with
         | none => (List.range args.length).map
             (fun i => "in" ++ toString (i + 1))
         | some ts => ts)
        baseName c with
    | none => none
    | some (newArgs, bs, c1) =>
      match st with
      | none =>
        match doStash (some none) (ctor (argsPre ++ newArgs))
            (baseName ++ "/out") c1 with
        | (se, nb, c2) => some (.Let (bsPre ++ bs ++ nb) se, [], c2)
      | some nm =>
        some (doStash (some nm)
          (if (bsPre ++ bs).isEmpty then ctor (argsPre ++ newArgs)
           else .Let (bsPre ++ bs) (ctor (argsPre ++ newArgs)))
          (baseName ++ "/out") c1)
  termination_by structural fuel _ _ _ _ _ _ _ _ => fuel

/-- The `for arg, tag in zip(args, tags)` loop of `transform_arguments`:
each argument is transformed with a stash named `{base_name}/{tag}`; the
new arguments and the appended bindings accumulate in order. -/
def transformArgs : Nat → List MExpr → List String → String → Nat →
    Option (List MExpr × List (MSym × MExpr) × Nat)
  | 0, _, _, _, _ => none
  | _ + 1, [], _, _, c => some ([], [], c)
  | _ + 1, _ :: _, [], _, c => some ([], [], c)
  | fuel + 1, arg :: args, tag :: tags, baseName, c =>
    match transform fuel arg (some (some (baseName ++ "/" ++ tag))) c with
    | none => none
    | some (newArg, bs1, c1) =>
      match transformArgs fuel args tags baseName c1 with
      | none => none
      | some (newArgs, bs2, c2) => some (newArg :: newArgs, bs1 ++ bs2, c2)
  termination_by structural fuel _ _ _ _ => fuel

/-- The binding loop of `transform_Let`: every right-hand side is
transformed with no stash. -/
def transformBinds : Nat → List (MSym × MExpr) → Nat →
    Option (List (MSym × MExpr) × Nat)
  | 0, _, _ => none
  | _ + 1, [], c => some ([], c)
  | fuel + 1, (s, b) :: bs, c =>
    match transform fuel b none c with
    | none => none
    | some (b2, _, c1) =>
      match transformBinds fuel bs c1 with
      | none => none
      | some (bs2, c2) => some ((s, b2) :: bs2, c2)
  termination_by structural fuel _ _ => fuel

/-- `ANormalTransformer.transform_Let`: transform the bindings and the
body, rebuild the `Let`, and stash it (under the default name `if`, as in
the source). -/
def transformLet : Nat → List (MSym × MExpr) → MExpr → Stash → Nat →
    Option (MExpr × List (MSym × MExpr) × Nat)
  | 0, _, _, _, _ => none
  | fuel + 1, bs, body, st, c =>
    match transformBinds fuel bs c with
    | none => none
    | some (bs2, c1) =>
      match transform fuel body none c1 with
      | none => none
      | some (body2, _, c2) => some (doStash st (.Let bs2 body2) "if" c2)
  termination_by structural fuel _ _ _ _ => fuel

/-- `ANormalTransformer.transform_Begin`: drop the leading bare atoms,
then either normalize the single remaining statement under the incoming
stash, or bind every remaining statement to a fresh anonymous symbol
(`self.gen('_')`, modelled by the counter) and normalize the resulting
`Let`. An empty statement list fails (`syms[-1]` raises). -/
def transformBegin : Nat → List MExpr → Stash → Nat →
    Option (MExpr × List (MSym × MExpr) × Nat)
  | 0, _, _, _ => none
  | fuel + 1, stmts, st, c =>
    match beginKept stmts with
    | [e] => transform fuel e st c
    | kept =>
      match ((List.range kept.length).map
          (fun i => MSym.gen "_" (c + i))).getLast? with
      | none => none
      | some lastSym =>
        transformLet fuel
          (((List.range kept.length).map (fun i => MSym.gen "_" (c + i))).zip
            kept)
          (.Symbol lastSym) st (c + kept.length)
  termination_by structural fuel _ _ _ => fuel
end

/-- The binding splice of `CollapseLet.transform_Let`: a collapsed
right-hand side that is a `Let` contributes its bindings in place and
keeps only its body as the value of the binding. -/
def spliceBind (s : MSym) (b2 : MExpr) (rest : List (MSym × MExpr)) :
    List (MSym × MExpr) :=
  match b2 with
  | .Let bs2 body2 => bs2 ++ (s, body2) :: rest
  | _ => (s, b2) :: rest

/-- The body splice of `CollapseLet.transform_Let`: a collapsed body that
is a `Let` donates its bindings to the outer binding list. -/
def spliceBody (nbs : List (MSym × MExpr)) (body2 : MExpr) : MExpr :=
  match body2 with
  | .Let bs2 body3 => .Let (nbs ++ bs2) body3
  | _ => .Let nbs body2

mutual
/-- `CollapseLet.transform` dispatch: `Let` nodes are flattened one level
after their parts are collapsed, `Closure` nodes are returned unchanged,
and `Begin` has no handler in `CollapseLet` (modelled from the spec: the
dispatch fails there). -/
def collapse : Nat → MExpr → Option MExpr
  | 0, _ => none
  | _ + 1, .Symbol s => some (.Symbol s)
  | _ + 1, .Value v => some (.Value v)
  | fuel + 1, .Lambda ps b =>
    match collapse fuel b with
    | none => none
    | some b2 => some (.Lambda ps b2)
  | fuel + 1, .Apply f args =>
    match collapse fuel f, collapseList fuel args with
    | some f2, some args2 => some (.Apply f2 args2)
    | _, _ => none
  | fuel + 1, .If c t f =>
    match collapse fuel c, collapse fuel t, collapse fuel f with
    | some c2, some t2, some f2 => some (.If c2 t2 f2)
    | _, _, _ => none
  | fuel + 1, .Tuple vs =>
    match collapseList fuel vs with
    | none => none
    | some vs2 => some (.Tuple vs2)
  | _ + 1, .Closure f args => some (.Closure f args)
  | fuel + 1, .Let bs body =>
    match collapseBinds fuel bs, collapse fuel body with
    | some nbs, some body2 => some (spliceBody nbs body2)
    | _, _ => none
  | _ + 1, .Begin _ => none
  termination_by structural fuel _ => fuel

/-- The element recursion of `CollapseLet` over argument and tuple
lists. -/
def collapseList : Nat → List MExpr → Option (List MExpr)
  | 0, _ => none
  | _ + 1, [] => some []
  | fuel + 1, e :: es =>
    match collapse fuel e, collapseList fuel es with
    | some e2, some es2 => some (e2 :: es2)
    | _, _ => none
  termination_by structural fuel _ => fuel

/-- The binding loop of `CollapseLet.transform_Let`: a collapsed
right-hand side that is itself a `Let` is spliced in at its position and
only its body is kept as the value of the binding. -/
def collapseBinds : Nat → List (MSym × MExpr) → Option (List (MSym × MExpr))
  | 0, _ => none
  | _ + 1, [] => some []
  | fuel + 1, (s, b) :: bs =>
    match collapse fuel b, collapseBinds fuel bs with
    | some b2, some rest => some (spliceBind s b2 rest)
    | _, _ => none
  termination_by structural fuel _ => fuel
end

/-- `a_normal`: the A-normal transformer (with the default stash `False`)
followed by the let collapser. -/
def a_normal (fuel : Nat) (e : MExpr) (c : Nat) : Option MExpr :=
  match transform fuel e none c with
  | none => none
  | some (r, _, _) => collapse fuel r

/-- Every member of the list is a bare atom. -/
def atomList (l : List MExpr) : Bool := l.all isAtom

mutual
/-- Operand discipline of A-normal form: every operand position of every
`Apply`, `If`, `Tuple` and `Closure` (function, argument, condition,
branch, tuple element, closure capture) holds a bare `Symbol` or `Value`;
compound terms appear only as `Let` right-hand sides, `Let` bodies and
`Lambda` bodies, and no `Begin` remains. -/
def anf : MExpr → Bool
  | .Symbol _ => true
  | .Value _ => true
  | .Apply f args => isAtom f && atomList args
  | .Lambda _ b => anf b
  | .If c t f => isAtom c && isAtom t && isAtom f
  | .Tuple vs => atomList vs
  | .Closure f args => isAtom f && atomList args
  | .Let bs body => anfBinds bs && anf body
  | .Begin _ => false

/-- The binding values of a `Let` are recursively in A-normal form. -/
def anfBinds : List (MSym × MExpr) → Bool
  | [] => true
  | (_, b) :: bs => anf b && anfBinds bs
end

/-- The node is a `Let`. -/
def isLet : MExpr → Bool
  | .Let _ _ => true
  | _ => false

mutual
/-- Flatness after collapsing: no `Let` anywhere in the tree has a `Let`
as a binding value or as its body. -/
def letFlat : MExpr → Bool
  | .Symbol _ => true
  | .Value _ => true
  | .Apply f args => letFlat f && letFlatList args
  | .Lambda _ b => letFlat b
  | .If c t f => letFlat c && letFlat t && letFlat f
  | .Tuple vs => letFlatList vs
  | .Closure f args => letFlat f && letFlatList args
  | .Let bs body => !isLet body && letFlat body && letFlatBinds bs
  | .Begin ss => letFlatList ss

/-- Flatness on expression lists. -/
def letFlatList : List MExpr → Bool
  | [] => true
  | e :: es => letFlat e && letFlatList es

/-- Flatness on binding lists: no value is a `Let`. -/
def letFlatBinds : List (MSym × MExpr) → Bool
  | [] => true
  | (_, b) :: bs => !isLet b && letFlat b && letFlatBinds bs
end

/-- Modelled from the spec: `GenSym` freshness — every generated symbol
occurring in the input has a counter below `c`, so symbols generated at
counters at or beyond `c` are new. -/
def genBound (c : Nat) : MSym → Bool
  | .user _ => true
  | .gen _ n => decide (n < c)

/-! ### Basic facts about the ANF predicates -/

theorem anf_of_isAtom {e : MExpr} (h : isAtom e = true) : anf e = true := by
  cases e <;> first | rfl | simp [isAtom] at h

theorem letFlat_of_isAtom {e : MExpr} (h : isAtom e = true) : letFlat e = true := by
  cases e <;> first | rfl | simp [isAtom] at h

theorem isLet_eq_false_of_isAtom {e : MExpr} (h : isAtom e = true) :
    isLet e = false := by
  cases e <;> first | rfl | simp [isAtom] at h

theorem atomList_cons {e : MExpr} {l : List MExpr} :
    atomList (e :: l) = (isAtom e && atomList l) := by
  simp [atomList]

theorem atomList_append {l1 l2 : List MExpr} :
    atomList (l1 ++ l2) = (atomList l1 && atomList l2) := by
  simp [atomList, List.all_append]

theorem letFlatList_of_atomList {l : List MExpr} (h : atomList l = true) :
    letFlatList l = true := by
  induction l with
  | nil => rfl
  | cons e es ih =>
    rw [atomList_cons, Bool.and_eq_true] at h
    simp [letFlatList, letFlat_of_isAtom h.1, ih h.2]

theorem anfBinds_append {l1 l2 : List (MSym × MExpr)} :
    anfBinds (l1 ++ l2) = (anfBinds l1 && anfBinds l2) := by
  induction l1 with
  | nil => simp [anfBinds]
  | cons p l ih =>
    cases p with
    | mk s b => simp [anfBinds, ih, Bool.and_assoc]

theorem letFlatBinds_append {l1 l2 : List (MSym × MExpr)} :
    letFlatBinds (l1 ++ l2) = (letFlatBinds l1 && letFlatBinds l2) := by
  induction l1 with
  | nil => simp [letFlatBinds]
  | cons p l ih =>
    cases p with
    | mk s b => simp [letFlatBinds, ih, Bool.and_assoc]

theorem applyCtor_anf {l : List MExpr} (h : atomList l = true) :
    anf (applyCtor l) = true := by
  cases l with
  | nil => rfl
  | cons f args =>
    rw [atomList_cons, Bool.and_eq_true] at h
    simp [applyCtor, anf, h.1, h.2]

theorem ifCtor_anf {l : List MExpr} (h : atomList l = true) :
    anf (ifCtor l) = true := by
  unfold ifCtor
  split
  · rename_i c t f
    simp only [atomList, List.all_cons, List.all_nil, Bool.and_eq_true] at h
    simp [anf, h.1, h.2.1, h.2.2.1]
  · rfl

theorem tupleCtor_anf {l : List MExpr} (h : atomList l = true) :
    anf (tupleCtor l) = true := by
  simp [tupleCtor, anf, h]

theorem closureCtor_anf {l : List MExpr} (h : atomList l = true) :
    anf (closureCtor l) = true := by
  cases l with
  | nil => rfl
  | cons f args =>
    rw [atomList_cons, Bool.and_eq_true] at h
    simp [closureCtor, anf, h.1, h.2]

/-- The two halves of `ANormalTransformer.stash`: the produced expression
and the appended bindings are well formed, and under a real stash the
produced expression is the generated symbol. -/
theorem doStash_anf {st : Stash} {result : MExpr} {d : String} {c : Nat}
    (h : anf result = true) :
    anf (doStash st result d c).1 = true ∧
    anfBinds (doStash st result d c).2.1 = true ∧
    (st ≠ none → isAtom (doStash st result d c).1 = true) := by
  cases st with
  | none => exact ⟨h, rfl, fun hn => absurd rfl hn⟩
  | some nm => exact ⟨rfl, by simp [doStash, anfBinds, h], fun _ => rfl⟩

/-- Invariant of the A-normal transformer, by induction on fuel: every
successful transformation yields an expression obeying the ANF operand
discipline, every appended binding carries an ANF value, and under a real
stash the returned expression is an atom. -/
theorem transform_anf : ∀ fuel : Nat,
    (∀ e st c r bs c2, transform fuel e st c = some (r, bs, c2) →
      anf r = true ∧ anfBinds bs = true ∧ (st ≠ none → isAtom r = true)) ∧
    (∀ args ctor st bno tgo c r bs c2,
      (∀ l, atomList l = true → anf (ctor l) = true) →
      transformArguments fuel args ctor st bno tgo c = some (r, bs, c2) →
      anf r = true ∧ anfBinds bs = true ∧ (st ≠ none → isAtom r = true)) ∧
    (∀ args ctor st bn tgo c pre bpre r bs c2,
      (∀ l, atomList l = true → anf (ctor l) = true) →
      atomList pre = true → anfBinds bpre = true →
      transformArgumentsRest fuel args ctor st bn tgo c pre bpre =
        some (r, bs, c2) →
      anf r = true ∧ anfBinds bs = true ∧ (st ≠ none → isAtom r = true)) ∧
    (∀ args tags bn c nas bs c2,
      transformArgs fuel args tags bn c = some (nas, bs, c2) →
      atomList nas = true ∧ anfBinds bs = true) ∧
    (∀ bs c bs2 c2, transformBinds fuel bs c = some (bs2, c2) →
      anfBinds bs2 = true) ∧
    (∀ bs body st c r out c2,
      transformLet fuel bs body st c = some (r, out, c2) →
      anf r = true ∧ anfBinds out = true ∧ (st ≠ none → isAtom r = true)) ∧
    (∀ ss st c r bs c2, transformBegin fuel ss st c = some (r, bs, c2) →
      anf r = true ∧ anfBinds bs = true ∧ (st ≠ none → isAtom r = true)) := by
  intro fuel
  induction fuel with
  | zero =>
    refine ⟨?_, ?_, ?_, ?_, ?_, ?_, ?_⟩ <;> intros <;> simp_all [transform,
      transformArguments, transformArgumentsRest, transformArgs,
      transformBinds, transformLet, transformBegin]
  | succ fuel ih =>
    obtain ⟨IH1, IH2, IH3, IH4, IH5, IH6, IH7⟩ := ih
    refine ⟨?_, ?_, ?_, ?_, ?_, ?_, ?_⟩
    · intro e st c r bs c2 h
      cases e with
      | Symbol s =>
        simp only [transform] at h
        obtain ⟨rfl, rfl, rfl⟩ := Option.some.inj h
        exact ⟨rfl, rfl, fun _ => rfl⟩
      | Value v =>
        simp only [transform] at h
        obtain ⟨rfl, rfl, rfl⟩ := Option.some.inj h
        exact ⟨rfl, rfl, fun _ => rfl⟩
      | Apply f args =>
        simp only [transform] at h
        exact IH2 _ _ _ _ _ _ _ _ _ (fun l hl => applyCtor_anf hl) h
      | Lambda ps body =>
        simp only [transform] at h
        split at h
        · cases h
        · rename_i body2 bsx c1 htb
          have heq := Option.some.inj h
          have h1 : r = (doStash st (.Lambda ps body2) "lambda" c1).1 := by
            rw [heq]
          have h2 : bs = (doStash st (.Lambda ps body2) "lambda" c1).2.1 := by
            rw [heq]
          rw [h1, h2]
          exact doStash_anf (IH1 _ _ _ _ _ _ htb).1
      | If cnd thn els =>
        simp only [transform] at h
        exact IH2 _ _ _ _ _ _ _ _ _ (fun l hl => ifCtor_anf hl) h
      | Tuple vs =>
        simp only [transform] at h
        exact IH2 _ _ _ _ _ _ _ _ _ (fun l hl => tupleCtor_anf hl) h
      | Closure f args =>
        simp only [transform] at h
        exact IH2 _ _ _ _ _ _ _ _ _ (fun l hl => closureCtor_anf hl) h
      | Let bs0 body =>
        simp only [transform] at h
        exact IH6 _ _ _ _ _ _ _ h
      | Begin ss =>
        simp only [transform] at h
        exact IH7 _ _ _ _ _ _ h
    · intro args ctor st bno tgo c r bs c2 hctor h
      cases bno with
      | some bn =>
        simp only [transformArguments] at h
        exact IH3 _ _ _ _ _ _ [] [] _ _ _ hctor rfl rfl h
      | none =>
        cases args with
        | nil => simp [transformArguments] at h
        | cons fnArg rest =>
          simp only [transformArguments] at h
          split at h
          · cases h
          · rename_i fnNew bs0 c0 htf
            split at h
            · cases h
            · rename_i lab hlo
              have hfn := IH1 _ _ _ _ _ _ htf
              have hatom : isAtom fnNew = true := hfn.2.2 (by simp)
              exact IH3 _ _ _ _ _ _ _ _ _ _ _ hctor
                (by simp [atomList, hatom]) hfn.2.1 h
    · intro args ctor st bn tgo c pre bpre r bs c2 hctor hpre hbpre h
      simp only [transformArgumentsRest] at h
      split at h
      · cases h
      · rename_i newArgs bs1 c1 hta
        have hargs := IH4 _ _ _ _ _ _ _ hta
        have happ : anf (ctor (pre ++ newArgs)) = true :=
          hctor _ (by rw [atomList_append, hpre, hargs.1]; rfl)
        cases st with
        | none =>
          simp only [doStash] at h
          obtain ⟨rfl, rfl, rfl⟩ := Option.some.inj h
          refine ⟨?_, rfl, fun hn => absurd rfl hn⟩
          show (anfBinds (bpre ++ bs1 ++
            [(MSym.gen (bn ++ "/out") c1, ctor (pre ++ newArgs))]) &&
            anf (.Symbol (.gen (bn ++ "/out") c1))) = true
          rw [anfBinds_append, anfBinds_append, hbpre, hargs.2]
          simp [anfBinds, happ, anf]
        | some nm =>
          have heq := Option.some.inj h
          have hR : anf (if (bpre ++ bs1).isEmpty then ctor (pre ++ newArgs)
              else .Let (bpre ++ bs1) (ctor (pre ++ newArgs))) = true := by
            cases hemp : (bpre ++ bs1).isEmpty with
            | true => simp only [if_pos]; exact happ
            | false =>
              simp only [Bool.false_eq_true, if_neg]
              show (anfBinds (bpre ++ bs1) && anf (ctor (pre ++ newArgs))) = true
              rw [anfBinds_append, hbpre, hargs.2, happ]
              rfl
          have h1 : r = (doStash (some nm) (if (bpre ++ bs1).isEmpty
              then ctor (pre ++ newArgs)
              else .Let (bpre ++ bs1) (ctor (pre ++ newArgs)))
              (bn ++ "/out") c1).1 := by rw [heq]
          have h2 : bs = (doStash (some nm) (if (bpre ++ bs1).isEmpty
              then ctor (pre ++ newArgs)
              else .Let (bpre ++ bs1) (ctor (pre ++ newArgs)))
              (bn ++ "/out") c1).2.1 := by rw [heq]
          rw [h1, h2]
          exact doStash_anf hR
    · intro args tags bn c nas bs c2 h
      cases args with
      | nil =>
        simp only [transformArgs] at h
        obtain ⟨rfl, rfl, rfl⟩ := Option.some.inj h
        exact ⟨rfl, rfl⟩
      | cons arg args2 =>
        cases tags with
        | nil =>
          simp only [transformArgs] at h
          obtain ⟨rfl, rfl, rfl⟩ := Option.some.inj h
          exact ⟨rfl, rfl⟩
        | cons tag tags2 =>
          simp only [transformArgs] at h
          split at h
          · cases h
          · rename_i newArg bs1 c1 ht1
            split at h
            · cases h
            · rename_i newArgs bs2 c3 ht2
              obtain ⟨rfl, rfl, rfl⟩ := Option.some.inj h
              have h1 := IH1 _ _ _ _ _ _ ht1
              have h2 := IH4 _ _ _ _ _ _ _ ht2
              refine ⟨?_, ?_⟩
              · rw [atomList_cons, h1.2.2 (by simp), h2.1]
                rfl
              · rw [anfBinds_append, h1.2.1, h2.2]
                rfl
    · intro bs c bs2 c2 h
      cases bs with
      | nil =>
        simp only [transformBinds] at h
        obtain ⟨rfl, rfl⟩ := Option.some.inj h
        rfl
      | cons p rest =>
        obtain ⟨s, b⟩ := p
        simp only [transformBinds] at h
        split at h
        · cases h
        · rename_i b2 bsx c1 ht1
          split at h
          · cases h
          · rename_i bs3 c3 ht2
            obtain ⟨rfl, rfl⟩ := Option.some.inj h
            show (anf b2 && anfBinds bs3) = true
            rw [(IH1 _ _ _ _ _ _ ht1).1, IH5 _ _ _ _ ht2]
            rfl
    · intro bs body st c r out c2 h
      simp only [transformLet] at h
      split at h
      · cases h
      · rename_i bs2 c1 htb
        split at h
        · cases h
        · rename_i body2 bsx c3 ht2
          have heq := Option.some.inj h
          have h1 : r = (doStash st (.Let bs2 body2) "if" c3).1 := by rw [heq]
          have h2 : out = (doStash st (.Let bs2 body2) "if" c3).2.1 := by
            rw [heq]
          rw [h1, h2]
          refine doStash_anf ?_
          show (anfBinds bs2 && anf body2) = true
          rw [IH5 _ _ _ _ htb, (IH1 _ _ _ _ _ _ ht2).1]
          rfl
    · intro ss st c r bs c2 h
      simp only [transformBegin] at h
      split at h
      · exact IH1 _ _ _ _ _ _ h
      · split at h
        · cases h
        · exact IH6 _ _ _ _ _ _ _ h

theorem spliceBody_anf {nbs : List (MSym × MExpr)} {body2 : MExpr}
    (h1 : anfBinds nbs = true) (h2 : anf body2 = true) :
    anf (spliceBody nbs body2) = true := by
  cases body2 with
  | Let bs2 body3 =>
    have h2a : (anfBinds bs2 && anf body3) = true := h2
    rw [Bool.and_eq_true] at h2a
    show (anfBinds (nbs ++ bs2) && anf body3) = true
    rw [anfBinds_append, h1, h2a.1, h2a.2]
    rfl
  | Symbol s =>
    show (anfBinds nbs && anf (.Symbol s)) = true
    rw [h1]
    rfl
  | Value v =>
    show (anfBinds nbs && anf (.Value v)) = true
    rw [h1]
    rfl
  | Apply f args =>
    show (anfBinds nbs && anf (.Apply f args)) = true
    rw [h1, h2]
    rfl
  | Lambda ps b =>
    show (anfBinds nbs && anf (.Lambda ps b)) = true
    rw [h1, h2]
    rfl
  | If c t f =>
    show (anfBinds nbs && anf (.If c t f)) = true
    rw [h1, h2]
    rfl
  | Tuple vs =>
    show (anfBinds nbs && anf (.Tuple vs)) = true
    rw [h1, h2]
    rfl
  | Closure f args =>
    show (anfBinds nbs && anf (.Closure f args)) = true
    rw [h1, h2]
    rfl
  | Begin ss =>
    have h2a : False := by simp [anf] at h2
    exact absurd h2a (fun hf => hf)

theorem spliceBody_flat {nbs : List (MSym × MExpr)} {body2 : MExpr}
    (h1 : letFlatBinds nbs = true) (h2 : letFlat body2 = true) :
    letFlat (spliceBody nbs body2) = true := by
  cases body2 with
  | Let bs2 body3 =>
    have h2a : (!isLet body3 && letFlat body3 && letFlatBinds bs2) = true := h2
    rw [Bool.and_eq_true, Bool.and_eq_true] at h2a
    show (!isLet body3 && letFlat body3 && letFlatBinds (nbs ++ bs2)) = true
    rw [letFlatBinds_append, h1, h2a.1.1, h2a.1.2, h2a.2]
    rfl
  | Symbol s =>
    show (!isLet (.Symbol s) && letFlat (.Symbol s) && letFlatBinds nbs) = true
    rw [h1]
    rfl
  | Value v =>
    show (!isLet (.Value v) && letFlat (.Value v) && letFlatBinds nbs) = true
    rw [h1]
    rfl
  | Apply f args =>
    show (!isLet (.Apply f args) && letFlat (.Apply f args) &&
      letFlatBinds nbs) = true
    rw [h1, h2]
    rfl
  | Lambda ps b =>
    show (!isLet (.Lambda ps b) && letFlat (.Lambda ps b) &&
      letFlatBinds nbs) = true
    rw [h1, h2]
    rfl
  | If c t f =>
    show (!isLet (.If c t f) && letFlat (.If c t f) && letFlatBinds nbs) = true
    rw [h1, h2]
    rfl
  | Tuple vs =>
    show (!isLet (.Tuple vs) && letFlat (.Tuple vs) && letFlatBinds nbs) = true
    rw [h1, h2]
    rfl
  | Closure f args =>
    show (!isLet (.Closure f args) && letFlat (.Closure f args) &&
      letFlatBinds nbs) = true
    rw [h1, h2]
    rfl
  | Begin ss =>
    show (!isLet (.Begin ss) && letFlat (.Begin ss) && letFlatBinds nbs) = true
    rw [h1, h2]
    rfl

theorem spliceBind_anf {s : MSym} {b2 : MExpr} {rest : List (MSym × MExpr)}
    (h1 : anf b2 = true) (h2 : anfBinds rest = true) :
    anfBinds (spliceBind s b2 rest) = true := by
  cases b2 with
  | Let bs2 body2 =>
    have h1a : (anfBinds bs2 && anf body2) = true := h1
    rw [Bool.and_eq_true] at h1a
    show anfBinds (bs2 ++ (s, body2) :: rest) = true
    rw [anfBinds_append, h1a.1]
    show (true && (anf body2 && anfBinds rest)) = true
    rw [h1a.2, h2]
    rfl
  | Symbol s2 =>
    show (anf (.Symbol s2) && anfBinds rest) = true
    rw [h2]
    rfl
  | Value v =>
    show (anf (.Value v) && anfBinds rest) = true
    rw [h2]
    rfl
  | Apply f args =>
    show (anf (.Apply f args) && anfBinds rest) = true
    rw [h1, h2]
    rfl
  | Lambda ps b =>
    show (anf (.Lambda ps b) && anfBinds rest) = true
    rw [h1, h2]
    rfl
  | If c t f =>
    show (anf (.If c t f) && anfBinds rest) = true
    rw [h1, h2]
    rfl
  | Tuple vs =>
    show (anf (.Tuple vs) && anfBinds rest) = true
    rw [h1, h2]
    rfl
  | Closure f args =>
    show (anf (.Closure f args) && anfBinds rest) = true
    rw [h1, h2]
    rfl
  | Begin ss =>
    have h1a : False := by simp [anf] at h1
    exact absurd h1a (fun hf => hf)

theorem spliceBind_flat {s : MSym} {b2 : MExpr} {rest : List (MSym × MExpr)}
    (h1 : letFlat b2 = true) (h2 : letFlatBinds rest = true) :
    letFlatBinds (spliceBind s b2 rest) = true := by
  cases b2 with
  | Let bs2 body2 =>
    have h1a : (!isLet body2 && letFlat body2 && letFlatBinds bs2) = true := h1
    rw [Bool.and_eq_true, Bool.and_eq_true] at h1a
    show letFlatBinds (bs2 ++ (s, body2) :: rest) = true
    rw [letFlatBinds_append, h1a.2]
    show (true && (!isLet body2 && letFlat body2 && letFlatBinds rest)) = true
    rw [h1a.1.1, h1a.1.2, h2]
    rfl
  | Symbol s2 =>
    show (!isLet (.Symbol s2) && letFlat (.Symbol s2) && letFlatBinds rest) =
      true
    rw [h2]
    rfl
  | Value v =>
    show (!isLet (.Value v) && letFlat (.Value v) && letFlatBinds rest) = true
    rw [h2]
    rfl
  | Apply f args =>
    show (!isLet (.Apply f args) && letFlat (.Apply f args) &&
      letFlatBinds rest) = true
    rw [h1, h2]
    rfl
  | Lambda ps b =>
    show (!isLet (.Lambda ps b) && letFlat (.Lambda ps b) &&
      letFlatBinds rest) = true
    rw [h1, h2]
    rfl
  | If c t f =>
    show (!isLet (.If c t f) && letFlat (.If c t f) && letFlatBinds rest) = true
    rw [h1, h2]
    rfl
  | Tuple vs =>
    show (!isLet (.Tuple vs) && letFlat (.Tuple vs) && letFlatBinds rest) = true
    rw [h1, h2]
    rfl
  | Closure f args =>
    show (!isLet (.Closure f args) && letFlat (.Closure f args) &&
      letFlatBinds rest) = true
    rw [h1, h2]
    rfl
  | Begin ss =>
    show (!isLet (.Begin ss) && letFlat (.Begin ss) && letFlatBinds rest) = true
    rw [h1, h2]
    rfl

/-- Invariant of the let collapser, by induction on fuel: on an input in
ANF operand discipline it preserves the discipline, produces a tree in
which no `Let` has a `Let` binding value or body, and leaves atoms (and
hence atomic operand lists) unchanged. -/
theorem collapse_anf : ∀ fuel : Nat,
    (∀ e r, collapse fuel e = some r → anf e = true →
      anf r = true ∧ letFlat r = true ∧ (isAtom e = true → r = e)) ∧
    (∀ l l2, collapseList fuel l = some l2 → atomList l = true → l2 = l) ∧
    (∀ bs bs2, collapseBinds fuel bs = some bs2 → anfBinds bs = true →
      anfBinds bs2 = true ∧ letFlatBinds bs2 = true) := by
  intro fuel
  induction fuel with
  | zero =>
    refine ⟨?_, ?_, ?_⟩ <;> intros <;>
      simp_all [collapse, collapseList, collapseBinds]
  | succ fuel ih =>
    obtain ⟨IH1, IH2, IH3⟩ := ih
    refine ⟨?_, ?_, ?_⟩
    · intro e r h ha
      cases e with
      | Symbol s =>
        simp only [collapse] at h
        obtain rfl := Option.some.inj h
        exact ⟨rfl, rfl, fun _ => rfl⟩
      | Value v =>
        simp only [collapse] at h
        obtain rfl := Option.some.inj h
        exact ⟨rfl, rfl, fun _ => rfl⟩
      | Apply f args =>
        have ha2 : (isAtom f && atomList args) = true := ha
        rw [Bool.and_eq_true] at ha2
        simp only [collapse] at h
        split at h
        · rename_i f2 args2 hf hl
          obtain rfl := Option.some.inj h
          have h1 := IH1 _ _ hf (anf_of_isAtom ha2.1)
          have hfe := h1.2.2 ha2.1
          have hle := IH2 _ _ hl ha2.2
          rw [hfe, hle]
          refine ⟨ha, ?_, fun _ => rfl⟩
          show (letFlat f && letFlatList args) = true
          rw [letFlat_of_isAtom ha2.1, letFlatList_of_atomList ha2.2]
          rfl
        · cases h
      | Lambda ps b =>
        simp only [collapse] at h
        split at h
        · cases h
        · rename_i b2 hb
          obtain rfl := Option.some.inj h
          have h1 := IH1 _ _ hb ha
          exact ⟨h1.1, h1.2.1, fun hat => by simp [isAtom] at hat⟩
      | If c0 t0 f0 =>
        have ha2 : (isAtom c0 && isAtom t0 && isAtom f0) = true := ha
        rw [Bool.and_eq_true, Bool.and_eq_true] at ha2
        simp only [collapse] at h
        split at h
        · rename_i c2 t2 f2 hc ht hf
          obtain rfl := Option.some.inj h
          have e1 := (IH1 _ _ hc (anf_of_isAtom ha2.1.1)).2.2 ha2.1.1
          have e2 := (IH1 _ _ ht (anf_of_isAtom ha2.1.2)).2.2 ha2.1.2
          have e3 := (IH1 _ _ hf (anf_of_isAtom ha2.2)).2.2 ha2.2
          rw [e1, e2, e3]
          refine ⟨ha, ?_, fun _ => rfl⟩
          show (letFlat c0 && letFlat t0 && letFlat f0) = true
          rw [letFlat_of_isAtom ha2.1.1, letFlat_of_isAtom ha2.1.2,
            letFlat_of_isAtom ha2.2]
          rfl
        · cases h
      | Tuple vs =>
        have ha2 : atomList vs = true := ha
        simp only [collapse] at h
        split at h
        · cases h
        · rename_i vs2 hl
          obtain rfl := Option.some.inj h
          have hle := IH2 _ _ hl ha2
          rw [hle]
          refine ⟨ha, ?_, fun hat => by simp [isAtom] at hat⟩
          exact letFlatList_of_atomList ha2
      | Closure f args =>
        have ha2 : (isAtom f && atomList args) = true := ha
        rw [Bool.and_eq_true] at ha2
        simp only [collapse] at h
        obtain rfl := Option.some.inj h
        refine ⟨ha, ?_, fun _ => rfl⟩
        show (letFlat f && letFlatList args) = true
        rw [letFlat_of_isAtom ha2.1, letFlatList_of_atomList ha2.2]
        rfl
      | Let bs body =>
        have ha2 : (anfBinds bs && anf body) = true := ha
        rw [Bool.and_eq_true] at ha2
        simp only [collapse] at h
        split at h
        · rename_i nbs body2 hbinds hbody
          obtain rfl := Option.some.inj h
          have h1 := IH3 _ _ hbinds ha2.1
          have h2 := IH1 _ _ hbody ha2.2
          refine ⟨spliceBody_anf h1.1 h2.1, ?_, fun hat => by
            simp [isAtom] at hat⟩
          exact spliceBody_flat h1.2 h2.2.1
        · cases h
      | Begin ss =>
        simp [anf] at ha
    · intro l l2 h ha
      cases l with
      | nil =>
        simp only [collapseList] at h
        obtain rfl := Option.some.inj h
        rfl
      | cons e es =>
        rw [atomList_cons, Bool.and_eq_true] at ha
        simp only [collapseList] at h
        split at h
        · rename_i e2 es2 he hes
          obtain rfl := Option.some.inj h
          have he2 := (IH1 _ _ he (anf_of_isAtom ha.1)).2.2 ha.1
          have hes2 := IH2 _ _ hes ha.2
          rw [he2, hes2]
        · cases h
    · intro bs bs2 h ha
      cases bs with
      | nil =>
        simp only [collapseBinds] at h
        obtain rfl := Option.some.inj h
        exact ⟨rfl, rfl⟩
      | cons p rest =>
        obtain ⟨s, b⟩ := p
        have ha2 : (anf b && anfBinds rest) = true := ha
        rw [Bool.and_eq_true] at ha2
        simp only [collapseBinds] at h
        split at h
        · rename_i b2 rest2 hb hrest
          obtain rfl := Option.some.inj h
          have h1 := IH1 _ _ hb ha2.1
          have h2 := IH3 _ _ hrest ha2.2
          exact ⟨spliceBind_anf h1.1 h2.1, spliceBind_flat h1.2.1 h2.2⟩
        · cases h

/-- The nested application `f(g(x))` over user symbols, a concrete input
for the normalization theorems. -/
def exNested : MExpr :=
  .Apply (.Symbol (.user "f"))
    [.Apply (.Symbol (.user "g")) [.Symbol (.user "x")]]

/-- The normal form that `a_normal` computes for `exNested`. -/
def exNestedOut : MExpr :=
  .Let [(MSym.gen "f/in1" 0,
          .Apply (.Symbol (.user "g")) [.Symbol (.user "x")]),
        (MSym.gen "f/out" 1,
          .Apply (.Symbol (.user "f")) [.Symbol (.gen "f/in1" 0)])]
    (.Symbol (.gen "f/out" 1))

/-- Claim C2: for every input expression tree, whenever `a_normal`
(the A-normal transformer followed by the let collapser) completes, every
operand position of every `Apply`, `If`, `Tuple` and `Closure` node of
the result (function position, argument, condition, branch, tuple
element, closure capture) holds only a `Symbol` or a `Value` node; no
compound node appears in an operand position. -/
theorem C2_anf_wellformed (fuel : Nat) (e : MExpr) (c : Nat) (r : MExpr)
    (h : a_normal fuel e c = some r) : anf r = true := by
  unfold a_normal at h
  split at h
  · cases h
  · rename_i t bs c2 ht
    exact ((collapse_anf fuel).1 _ _ h
      ((transform_anf fuel).1 _ _ _ _ _ _ ht).1).1

theorem C2_anf_wellformed_witness :
    a_normal 10 exNested 0 = some exNestedOut ∧ anf exNestedOut = true :=
  ⟨rfl, C2_anf_wellformed 10 exNested 0 exNestedOut rfl⟩

/-- Claim C5: on every tree produced by the A-normal transformer the
let collapser yields a tree in which no `Let` has a `Let` among its
binding values or as its body; moreover a binding whose collapsed
right-hand side is a `Let` has the inner bindings spliced in at its
position (in order) and keeps only the inner body as its value, and an
outer `Let` whose collapsed body is a `Let` takes the concatenated
binding lists and the inner body. -/
theorem C5_collapse_flat :
    (∀ fuel fuel2 e c t bs c2 r, transform fuel e none c = some (t, bs, c2) →
      collapse fuel2 t = some r → letFlat r = true) ∧
    (∀ fuel s b rest bs2 body2 nrest,
      collapse fuel b = some (.Let bs2 body2) →
      collapseBinds fuel rest = some nrest →
      collapseBinds (fuel + 1) ((s, b) :: rest) =
        some (bs2 ++ (s, body2) :: nrest)) ∧
    (∀ fuel bs body nbs bs2 body2, collapseBinds fuel bs = some nbs →
      collapse fuel body = some (.Let bs2 body2) →
      collapse (fuel + 1) (.Let bs body) = some (.Let (nbs ++ bs2) body2)) := by
  refine ⟨?_, ?_, ?_⟩
  · intro fuel fuel2 e c t bs c2 r ht hc
    exact ((collapse_anf fuel2).1 _ _ hc
      ((transform_anf fuel).1 _ _ _ _ _ _ ht).1).2.1
  · intro fuel s b rest bs2 body2 nrest hb hrest
    simp [collapseBinds, hb, hrest, spliceBind]
  · intro fuel bs body nbs bs2 body2 hbs hbody
    simp [collapse, hbs, hbody, spliceBody]

theorem C5_collapse_flat_witness :
    letFlat exNestedOut = true ∧
    collapseBinds 4
        [(MSym.user "s", .Let [(MSym.user "t", .Value 1)] (.Value 2))] =
      some [(MSym.user "t", .Value 1), (MSym.user "s", .Value 2)] ∧
    collapse 4 (.Let [] (.Let [(MSym.user "t", .Value 1)] (.Value 2))) =
      some (.Let [(MSym.user "t", .Value 1)] (.Value 2)) :=
  ⟨C5_collapse_flat.1 10 10 exNested 0 exNestedOut [] 2 exNestedOut rfl rfl,
   C5_collapse_flat.2.1 3 (.user "s")
     (.Let [(.user "t", .Value 1)] (.Value 2)) []
     [(.user "t", .Value 1)] (.Value 2) [] rfl rfl,
   C5_collapse_flat.2.2 3 [] (.Let [(.user "t", .Value 1)] (.Value 2)) []
     [(.user "t", .Value 1)] (.Value 2) rfl rfl⟩

theorem gensyms_getLast {c : Nat} (n : Nat) (hn : n ≠ 0) :
    (((List.range n).map (fun i => MSym.gen "_" (c + i)))).getLast? =
      some (.gen "_" (c + (n - 1))) := by
  cases n with
  | zero => exact absurd rfl hn
  | succ m =>
    rw [List.range_succ, List.map_append]
    simp [List.getLast?_concat]

theorem gensyms_nodup {c n : Nat} :
    (((List.range n).map (fun i => MSym.gen "_" (c + i)))).Nodup := by
  refine List.Nodup.map ?_ (List.nodup_range n)
  intro i j hij
  injection hij with h1 h2
  omega

/-- Claim C9: `transform_Begin` drops every leading statement that is a
bare atom (`Symbol` or `Value`); if exactly one statement remains it is
normalized directly under the incoming stash; otherwise one anonymous
fresh symbol is generated per remaining statement (pairwise distinct, one
each), and the equivalent `Let` binding each statement to its symbol in
order, with the last symbol as its body, is normalized instead under the
incoming stash (an empty statement list fails). -/
theorem C9_begin_normalization (fuel : Nat) (ss : List MExpr) (st : Stash)
    (c : Nat) :
    transform (fuel + 1) (.Begin ss) st c = transformBegin fuel ss st c ∧
    (∀ e, beginKept ss = [e] →
      transformBegin (fuel + 1) ss st c = transform fuel e st c) ∧
    (∀ e1 e2 rest, beginKept ss = e1 :: e2 :: rest →
      ((List.range (beginKept ss).length).map
          (fun i => MSym.gen "_" (c + i))).Nodup ∧
      ((List.range (beginKept ss).length).map
          (fun i => MSym.gen "_" (c + i))).length = (beginKept ss).length ∧
      transformBegin (fuel + 1) ss st c =
        transform (fuel + 1)
          (.Let (((List.range (beginKept ss).length).map
              (fun i => MSym.gen "_" (c + i))).zip (beginKept ss))
            (.Symbol (.gen "_" (c + ((beginKept ss).length - 1)))))
          st (c + (beginKept ss).length)) ∧
    (beginKept ss = [] → transformBegin (fuel + 1) ss st c = none) := by
  refine ⟨rfl, ?_, ?_, ?_⟩
  · intro e hk
    simp only [transformBegin, hk]
  · intro e1 e2 rest hk
    have hlen : (beginKept ss).length ≠ 0 := by rw [hk]; simp
    refine ⟨gensyms_nodup, by simp, ?_⟩
    simp only [transformBegin]
    split
    · rename_i e heq
      rw [hk] at heq
      simp at heq
    · split
      · rename_i hgl
        rw [gensyms_getLast _ hlen] at hgl
        cases hgl
      · rename_i lastSym hgl
        rw [gensyms_getLast _ hlen] at hgl
        obtain rfl := Option.some.inj hgl
        rfl
  · intro hk
    simp [transformBegin, hk]

theorem C9_begin_normalization_witness :
    transformBegin 4 [.Value 1, .Symbol (.user "a")] none 0 =
      transform 3 (.Symbol (.user "a")) none 0 ∧
    transformBegin 6 [] none 0 = none ∧
    transformBegin 6 [.Value 7, .Tuple [], .Value 8] none 0 =
      transform 6
        (.Let [(MSym.gen "_" 0, .Tuple []), (MSym.gen "_" 1, .Value 8)]
          (.Symbol (.gen "_" 1))) none 2 :=
  ⟨(C9_begin_normalization 3 [.Value 1, .Symbol (.user "a")] none 0).2.1
      (.Symbol (.user "a")) rfl,
   (C9_begin_normalization 5 [] none 0).2.2.2 rfl,
   ((C9_begin_normalization 5 [.Value 7, .Tuple [], .Value 8] none 0).2.2.1
      (.Tuple []) (.Value 8) [] rfl).2.2⟩

theorem str_append_ne_empty (a b : String) (hb : ¬ b = "") :
    ¬ (a ++ b = "") := by
  intro h
  apply hb
  apply String.ext
  have h3 := congrArg String.data h
  simp only [String.data_append] at h3
  have h4 : b.data = [] := (List.append_eq_nil.mp h3).2
  rw [h4]

theorem genBound_ne {s : MSym} {c : Nat} (h : genBound c s = true) {k : Nat}
    (hk : c ≤ k) (b : String) : MSym.gen b k ≠ s := by
  intro he
  cases s with
  | user s2 => cases he
  | gen b2 n =>
    injection he with h1 h2
    simp only [genBound, decide_eq_true_eq] at h
    omega

/-- Claim C8 (counterexample): normalizing `Apply(f, Apply(g, x))` does
not produce the one-binding `Let([(t, Apply(g, x))], Apply(f, t))` of the
claim for any name `t`: the transformer stashes the outer application as
well (under a `…/out` name), so the result has two bindings and a bare
symbol as its body — exactly the shape shown in the docstring of
`a_normal`. -/
theorem C8_apply_nested_counterexample :
    a_normal 10 exNested 0 = some exNestedOut ∧
    ∀ t : MSym, exNestedOut ≠
      .Let [(t, .Apply (.Symbol (.user "g")) [.Symbol (.user "x")])]
        (.Apply (.Symbol (.user "f")) [.Symbol t]) := by
  refine ⟨rfl, ?_⟩
  intro t h
  simp [exNestedOut] at h

/-- Claim C8 (amended): for all symbols `f`, `g`, `x` whose generated
names (if any) predate the counter `c`, normalizing `Apply(f, Apply(g,
x))` yields `Let([(t, Apply(g, x)), (u, Apply(f, t))], u)` where `t` and
`u` are generated names derived from the label of `f`, distinct from each
other and from `f`, `g` and `x`. -/
theorem C8_apply_nested_amended (f g x : MSym) (c fuel : Nat)
    (hf : genBound c f = true) (hg : genBound c g = true)
    (hx : genBound c x = true) :
    a_normal (fuel + 10)
        (.Apply (.Symbol f) [.Apply (.Symbol g) [.Symbol x]]) c =
      some (.Let
        [(MSym.gen (baseNameOf (symLabel f) ++ "/" ++ "in1") c,
          .Apply (.Symbol g) [.Symbol x]),
         (MSym.gen (baseNameOf (symLabel f) ++ "/out") (c + 1),
          .Apply (.Symbol f)
            [.Symbol (.gen (baseNameOf (symLabel f) ++ "/" ++ "in1") c)])]
        (.Symbol (.gen (baseNameOf (symLabel f) ++ "/out") (c + 1)))) ∧
    MSym.gen (baseNameOf (symLabel f) ++ "/" ++ "in1") c ≠
      MSym.gen (baseNameOf (symLabel f) ++ "/out") (c + 1) ∧
    MSym.gen (baseNameOf (symLabel f) ++ "/" ++ "in1") c ≠ f ∧
    MSym.gen (baseNameOf (symLabel f) ++ "/" ++ "in1") c ≠ g ∧
    MSym.gen (baseNameOf (symLabel f) ++ "/" ++ "in1") c ≠ x ∧
    MSym.gen (baseNameOf (symLabel f) ++ "/out") (c + 1) ≠ f ∧
    MSym.gen (baseNameOf (symLabel f) ++ "/out") (c + 1) ≠ g ∧
    MSym.gen (baseNameOf (symLabel f) ++ "/out") (c + 1) ≠ x := by
  have htag : ("in" ++ toString (0 + 1) : String) = "in1" := rfl
  have hne1 : ((baseNameOf (symLabel f) ++ "/" ++ "in1" : String) = "") =
      False := eq_false (str_append_ne_empty _ _ (by decide))
  refine ⟨?_, ?_, genBound_ne hf (Nat.le_refl c) _,
    genBound_ne hg (Nat.le_refl c) _, genBound_ne hx (Nat.le_refl c) _,
    genBound_ne hf (Nat.le_succ c) _, genBound_ne hg (Nat.le_succ c) _,
    genBound_ne hx (Nat.le_succ c) _⟩
  · simp [a_normal, transform, transformArguments, transformArgumentsRest,
      transformArgs, labelOf, doStash, collapse, collapseList, collapseBinds,
      spliceBind, spliceBody, htag, hne1]
  · intro he
    injection he with h1 h2
    omega

theorem C8_apply_nested_amended_witness :
    a_normal 10 exNested 0 = some exNestedOut ∧
    MSym.gen "f/in1" 0 ≠ MSym.gen "f/out" 1 ∧
    MSym.gen "f/in1" 0 ≠ .user "f" ∧
    MSym.gen "f/in1" 0 ≠ .user "g" ∧
    MSym.gen "f/in1" 0 ≠ .user "x" ∧
    MSym.gen "f/out" 1 ≠ .user "f" ∧
    MSym.gen "f/out" 1 ≠ .user "g" ∧
    MSym.gen "f/out" 1 ≠ .user "x" :=
  C8_apply_nested_amended (.user "f") (.user "g") (.user "x") 0 0 rfl rfl rfl

end Myia
